import Mathlib

/-!
Verification development for the Moore-automata library `ma.c`.

The C code is shallowly embedded as follows.

* A `moore_t *` pointer is modelled as a natural-number heap id; the heap is a
  function `Nat → Option Machine` (`none` = no machine at that address).
  A nullable pointer argument is `Option Nat` (`none` = `NULL`).
* 64-bit word buffers (`uint64_t *`) are `List Nat`; each word is kept below
  `2 ^ 64` by the bit operations themselves (masks are single bits, `~x` is
  `MASK64 ^^^ x`).
* The user-supplied callbacks `t` and `y` are opaque pure functions, as the
  external-interface contract requires: `t` maps (input words, state words) to
  the full next-state buffer (`ILE_UINT s` words), `y` maps state words to the
  full output buffer (`ILE_UINT m` words).  The `n, m, s` arguments the C code
  passes to them are fixed per machine and are dropped.
* The child-connection list `polaczenia_dzieci` holds, in the C code, pointers
  into other machines' wiring tables (`&a_in->podlaczenia_do_a[in + i]`); such
  a pointer is modelled as the pair (sink machine id, input bit index).  The
  artificial (dummy) head nodes of the child and parent lists never match any
  of the code's comparisons (their fields are all `NULL`) and are therefore not
  represented; the lists model exactly the payload nodes.
* `calloc` failure: `ma_step` takes an allocation oracle `alloc : Nat → Bool`
  telling whether the i-th scratch allocation succeeds; the other operations
  are modelled on the paths where allocation succeeds.
* A heap lookup that fails where the C code would dereference the pointer is
  undefined behaviour in C; the model takes a harmless junk branch there
  (commented at each site).  No claim depends on those branches.
-/

/-- ILE_UINT(x) = number of 64-bit words needed for x bits, as in the C macro. -/
def ILE_UINT (x : Nat) : Nat := (x + 63) / 64

/-- All 64 bits set; used to model the `uint64_t` complement `~x` as `MASK64 ^^^ x`. -/
def MASK64 : Nat := 2 ^ 64 - 1

/-- One wiring-table entry (`polaczenie_t`): which bit is taken (`bit_biore`),
from which machine (`a_z_kad`, `none` = unconnected), and the owning machine
(`ja`). -/
structure Conn where
  bit_biore : Nat
  a_z_kad : Option Nat
  ja : Option Nat
deriving DecidableEq, Repr

instance : Inhabited Conn := ⟨⟨0, none, none⟩⟩

/-- A Moore machine (`struct moore`). -/
structure Machine where
  n : Nat
  m : Nat
  s : Nat
  t : List Nat → List Nat → List Nat
  y : List Nat → List Nat
  input : List Nat
  state : List Nat
  output : List Nat
  next_state : Option (List Nat)
  polaczenia_dzieci : List (Nat × Nat)
  rodzice : List (Option Nat)
  podlaczenia_do_a : List Conn

abbrev Heap := Nat → Option Machine

/-- Error codes set through `errno` by the C code. -/
inductive Err where
  | EINVAL : Err
  | ENOMEM : Err
deriving DecidableEq

/-- Heap after storing machine `a` at address `i`. -/
def updh (h : Heap) (i : Nat) (a : Machine) : Heap :=
  fun j => if j = i then some a else h j

/-- ma_set_state: null checks, then copies `ILE_UINT s` state words and
recomputes the output through `y`. -/
def ma_set_state (h : Heap) (a? : Option Nat) (st? : Option (List Nat)) :
    Heap × Option Err :=
  match a?, st? with
  | none, _ => (h, some Err.EINVAL)
  | _, none => (h, some Err.EINVAL)
  | some aid, some st =>
    match h aid with
    | none => (h, some Err.EINVAL)  -- dangling pointer: UB in C, junk branch
    | some a =>
      let st2 := st.take (ILE_UINT a.s)
      (updh h aid { a with state := st2, output := a.y st2 }, none)

/-- ma_create_full: `newId` models the fresh address returned by `calloc`
(all allocations assumed to succeed).  The wiring table gets `n` entries with
`bit_biore = 0`, `a_z_kad = NULL` and `ja = ` the new machine itself. -/
def ma_create_full (h : Heap) (newId : Nat) (n m s : Nat)
    (t : List Nat → List Nat → List Nat) (y : List Nat → List Nat)
    (q? : Option (List Nat)) : Heap × Option Err :=
  match q? with
  | none => (h, some Err.EINVAL)
  | some q =>
    if m = 0 ∨ s = 0 then (h, some Err.EINVAL)
    else
      let st := q.take (ILE_UINT s)
      (updh h newId
        { n := n, m := m, s := s, t := t, y := y
          input := List.replicate (ILE_UINT n) 0
          state := st
          output := y st
          next_state := none
          polaczenia_dzieci := []
          rodzice := []
          podlaczenia_do_a := (List.range n).map fun _ =>
            { bit_biore := 0, a_z_kad := none, ja := some newId } }, none)

/-- ma_set_input: EINVAL on null machine, null input or `n = 0`; otherwise
copies `ILE_UINT n` words into the input buffer. -/
def ma_set_input (h : Heap) (a? : Option Nat) (inp? : Option (List Nat)) :
    Heap × Option Err :=
  match a?, inp? with
  | none, _ => (h, some Err.EINVAL)
  | _, none => (h, some Err.EINVAL)
  | some aid, some inp =>
    match h aid with
    | none => (h, some Err.EINVAL)  -- dangling pointer: UB in C, junk branch
    | some a =>
      if a.n = 0 then (h, some Err.EINVAL)
      else (updh h aid { a with input := inp.take (ILE_UINT a.n) }, none)

/-- Appends `num` child-connection nodes `(a_in, in + i)` at the end of
`a_out`'s child list (first loop of `ma_connect`). -/
def appendKids (h : Heap) (outId inId inOff num : Nat) : Heap :=
  match h outId with
  | none => h  -- unreachable on the modelled path
  | some b =>
    updh h outId
      { b with polaczenia_dzieci :=
          b.polaczenia_dzieci ++ (List.range num).map fun i => (inId, inOff + i) }

/-- Sets the `num` wiring entries of `a_in` (second loop of `ma_connect`):
`bit_biore := out + i`, `a_z_kad := a_out`, `ja := a_in`. -/
def setWires (h : Heap) (inId outId inOff outOff num : Nat) : Heap :=
  match h inId with
  | none => h  -- unreachable on the modelled path
  | some a =>
    updh h inId
      { a with podlaczenia_do_a :=
          ((List.range num).foldl
            (fun w i => w.set (inOff + i)
              { bit_biore := outOff + i, a_z_kad := some outId, ja := some inId })
            a.podlaczenia_do_a) }

/-- Adds `a_out` to `a_in`'s parent list unless it is already present, in which
case the freshly allocated node is freed and the existing entry reused (last
loop of `ma_connect`). -/
def addParent (h : Heap) (inId outId : Nat) : Heap :=
  match h inId with
  | none => h  -- unreachable on the modelled path
  | some a =>
    if some outId ∈ a.rodzice then h
    else updh h inId { a with rodzice := a.rodzice ++ [some outId] }

/-- ma_connect(a_in, in, a_out, out, num): bound checks, then child-node
append, wiring update and parent insertion, in the order of the C code. -/
def ma_connect (h : Heap) (aIn? : Option Nat) (inOff : Nat) (aOut? : Option Nat)
    (outOff num : Nat) : Heap × Option Err :=
  match aIn?, aOut? with
  | none, _ => (h, some Err.EINVAL)
  | _, none => (h, some Err.EINVAL)
  | some inId, some outId =>
    match h inId, h outId with
    | some aIn, some aOut =>
      -- The C sums `in + num` and `out + num` are computed in size_t and wrap
      -- mod 2^64, so a wrapping combination can pass this check; the C code
      -- then indexes the wiring table out of bounds (UB), which the list
      -- operations below model as out-of-range no-ops.
      if num = 0 ∨ (inOff + num) % 2 ^ 64 > aIn.n ∨ (outOff + num) % 2 ^ 64 > aOut.m then
        (h, some Err.EINVAL)
      else
        (addParent (setWires (appendKids h outId inId inOff num)
          inId outId inOff outOff num) inId outId, none)
    | _, _ => (h, some Err.EINVAL)  -- dangling pointer: UB in C, junk branch

/-- ma_disconnect(a_in, in, num): bound checks, then `a_z_kad := NULL` on the
`num` wiring entries (`bit_biore` and `ja` are kept, as in the C code). -/
def ma_disconnect (h : Heap) (aIn? : Option Nat) (inOff num : Nat) :
    Heap × Option Err :=
  match aIn? with
  | none => (h, some Err.EINVAL)
  | some inId =>
    match h inId with
    | none => (h, some Err.EINVAL)  -- dangling pointer: UB in C, junk branch
    | some a =>
      -- The C sum `in + num` is computed in size_t and wraps mod 2^64 (see
      -- the note in `ma_connect`).
      if num = 0 ∨ (inOff + num) % 2 ^ 64 > a.n then (h, some Err.EINVAL)
      else
        (updh h inId
          { a with podlaczenia_do_a :=
              ((List.range num).foldl
                (fun w i =>
                  w.set (inOff + i) { w.getD (inOff + i) default with a_z_kad := none })
                a.podlaczenia_do_a) }, none)

/-- First loop of `ma_delete(a)`: for each child-connection node, clear the
pointed-to wiring entry's source if it still references `a`. -/
def clearEntrySrc (A : Nat) (h : Heap) (nd : Nat × Nat) : Heap :=
  match h nd.1 with
  | none => h  -- node into a freed machine: UB in C, junk branch
  | some c =>
    let e := c.podlaczenia_do_a.getD nd.2 default
    if e.a_z_kad = some A then
      updh h nd.1
        { c with podlaczenia_do_a :=
            c.podlaczenia_do_a.set nd.2 { e with a_z_kad := none } }
    else h

/-- Second loop of `ma_delete(a)`: for each child-connection node, follow its
`ja` pointer and null every parent-list entry of that machine equal to `a`. -/
def nullParentA (A : Nat) (h : Heap) (nd : Nat × Nat) : Heap :=
  match h nd.1 with
  | none => h  -- node into a freed machine: UB in C, junk branch
  | some c =>
    match (c.podlaczenia_do_a.getD nd.2 default).ja with
    | none => h
    | some jaId =>
      match h jaId with
      | none => h  -- dangling `ja`: UB in C, junk branch
      | some cja =>
        updh h jaId
          { cja with rodzice :=
              cja.rodzice.map fun p => if p = some A then none else p }

/-- The `ja` field of the wiring entry a child-connection node points at. -/
def derefJa (h : Heap) (nd : Nat × Nat) : Option Nat :=
  match h nd.1 with
  | none => none
  | some c => (c.podlaczenia_do_a.getD nd.2 default).ja

/-- Third loop of `ma_delete(a)`: for each non-null parent, remove from that
parent's child list every node whose pointed-to wiring entry has `ja = a`. -/
def removeChildNodes (A : Nat) (h : Heap) (p? : Option Nat) : Heap :=
  match p? with
  | none => h
  | some pid =>
    match h pid with
    | none => h  -- dangling parent: UB in C, junk branch
    | some p =>
      updh h pid
        { p with polaczenia_dzieci :=
            p.polaczenia_dzieci.filter fun nd => !(derefJa h nd == some A) }

/-- ma_delete: no-op on NULL; otherwise the three cleanup loops of the C code
in order, then the machine itself is freed. -/
def ma_delete (h : Heap) (a? : Option Nat) : Heap :=
  match a? with
  | none => h
  | some A =>
    match h A with
    | none => h  -- double free: UB in C, junk branch
    | some a =>
      let h1 := a.polaczenia_dzieci.foldl (clearEntrySrc A) h
      let kids1 := match h1 A with
        | none => []
        | some a1 => a1.polaczenia_dzieci
      let h2 := kids1.foldl (nullParentA A) h1
      let rodz := match h2 A with
        | none => []
        | some a2 => a2.rodzice
      let h3 := rodz.foldl (removeChildNodes A) h2
      fun i => if i = A then none else h3 i

/-- Scratch-buffer allocation loop of `ma_step`: checks each batch entry for
NULL and allocates a zeroed `next_state` buffer for it.  On EINVAL or ENOMEM
it returns at once; as in the C code, buffers already stored in earlier
machines' `next_state` fields are NOT released. -/
def stepAlloc (alloc : Nat → Bool) (h : Heap) :
    List (Option Nat) → Nat → Heap × Option Err
  | [], _ => (h, none)
  | none :: _, _ => (h, some Err.EINVAL)
  | some aid :: rest, i =>
    match h aid with
    | none => (h, some Err.EINVAL)  -- dangling pointer: UB in C, junk branch
    | some a =>
      if alloc i then
        stepAlloc alloc
          (updh h aid { a with next_state := some (List.replicate (ILE_UINT a.s) 0) })
          rest (i + 1)
      else (h, some Err.ENOMEM)

/-- One iteration of the input-refresh inner loop of `ma_step`, for input bit
`j` of machine `aid`.  This is the literal C computation: the source word is
`b->output[ILE_UINT(bit_biore+1)-1]`, the mask is `1 << (bit_biore % 64)`, and
the destination word is `input[ILE_UINT(j+1)-1]`. -/
def refreshBit (h : Heap) (aid : Nat) (j : Nat) : Heap :=
  match h aid with
  | none => h  -- unreachable on the modelled path
  | some a =>
    let e := a.podlaczenia_do_a.getD j default
    match e.a_z_kad with
    | none => h
    | some bId =>
      match h bId with
      | none => h  -- dangling wiring source: UB in C, junk branch
      | some b =>
        let zkad := b.output.getD (ILE_UINT (e.bit_biore + 1) - 1) 0
        let x := (1 <<< (e.bit_biore % 64)) % 2 ^ 64
        let yv := x &&& zkad
        let slowo := ILE_UINT (j + 1) - 1
        let w := a.input.getD slowo 0
        let w2 := if yv > 0 then w ||| yv else w &&& (MASK64 ^^^ x)
        updh h aid { a with input := a.input.set slowo w2 }

/-- The input-refresh loop of `ma_step` for one machine. -/
def refreshInput (h : Heap) (aid : Nat) : Heap :=
  match h aid with
  | none => h
  | some a => (List.range a.n).foldl (fun hh j => refreshBit hh aid j) h

/-- Transition computation of `ma_step` for one machine: the callback fills the
scratch `next_state` buffer from the refreshed input and the current state. -/
def transOne (h : Heap) (aid : Nat) : Heap :=
  match h aid with
  | none => h
  | some a => updh h aid { a with next_state := some (a.t a.input a.state) }

/-- Body of the second `ma_step` loop for one batch entry: refresh the
machine's input, then run its transition callback. -/
def p2one (h : Heap) (id? : Option Nat) : Heap :=
  match id? with
  | none => h  -- unreachable: nulls were rejected by the allocation loop
  | some aid => transOne (refreshInput h aid) aid

/-- Second loop of `ma_step` over the whole batch. -/
def stepPhase2 (h : Heap) (l : List (Option Nat)) : Heap :=
  l.foldl p2one h

/-- Body of the commit loop of `ma_step` for one batch entry: copy `ILE_UINT s`
words from the scratch buffer into the state, recompute the output, release
the scratch buffer. -/
def p3one (h : Heap) (id? : Option Nat) : Heap :=
  match id? with
  | none => h  -- unreachable: nulls were rejected by the allocation loop
  | some aid =>
    match h aid with
    | none => h
    | some a =>
      match a.next_state with
      | none => h
      | some ns =>
        let st := ns.take (ILE_UINT a.s)
        updh h aid { a with state := st, output := a.y st, next_state := none }

/-- Commit loop of `ma_step` over the whole batch. -/
def stepPhase3 (h : Heap) (l : List (Option Nat)) : Heap :=
  l.foldl p3one h

/-- ma_step: EINVAL on a NULL or empty batch, then allocation loop,
refresh-and-transition loop, and commit loop.  The returned heap is the memory
state when the call returns, also on the error paths. -/
def ma_step (alloc : Nat → Bool) (h : Heap) (at? : Option (List (Option Nat))) :
    Heap × Option Err :=
  match at? with
  | none => (h, some Err.EINVAL)
  | some batch =>
    if batch.length = 0 then (h, some Err.EINVAL)
    else
      match stepAlloc alloc h batch 0 with
      | (h1, some e) => (h1, some e)
      | (h1, none) => (stepPhase3 (stepPhase2 h1 batch) batch, none)

/-- Allocation oracle on which every `calloc` succeeds. -/
def allocAll : Nat → Bool := fun _ => true

/-- Output words of the machine at address `i` (the projection the refresh
phase reads). -/
def outM (h : Heap) (i : Nat) : Option (List Nat) := (h i).map (·.output)

/-! Concrete fixtures used by the per-claim evaluation and witness theorems. -/

/-- Transition callback that keeps the state unchanged. -/
def tIdQ : List Nat → List Nat → List Nat := fun _ st => st

/-- Transition callback that copies the (single-word) input into the state. -/
def tCopyIn : List Nat → List Nat → List Nat := fun inp _ => inp.take 1

/-- Transition callback `next_state = NOT input` for a 1-bit machine. -/
def tNotC7 : List Nat → List Nat → List Nat := fun inp _ => [1 - (inp.getD 0 0 &&& 1)]

/-- Identity output callback for a machine with `m = 1`. -/
def yTake1 : List Nat → List Nat := fun st => st.take 1

/-- Sink machine for the C1 evaluation: `n = 2`, input bit 1 wired to output
bit 0 of machine 1. -/
def mC1A : Machine :=
  { n := 2, m := 1, s := 1, t := tIdQ, y := yTake1,
    input := [0], state := [0], output := [0], next_state := none,
    polaczenia_dzieci := [], rodzice := [some 1],
    podlaczenia_do_a := [⟨0, none, some 0⟩, ⟨0, some 1, some 0⟩] }

/-- Source machine for the C1 evaluation: `m = 1`, output bit 0 set. -/
def mC1B : Machine :=
  { n := 0, m := 1, s := 1, t := tIdQ, y := yTake1,
    input := [], state := [1], output := [1], next_state := none,
    polaczenia_dzieci := [(0, 1)], rodzice := [],
    podlaczenia_do_a := [] }

def hC1 : Heap := fun i => if i = 0 then some mC1A else if i = 1 then some mC1B else none

/-- Sink machine for the C8 evaluation: input bit 0 wired to output bit 1 of
machine 1; input bit 1 unwired. -/
def mC8A : Machine :=
  { n := 2, m := 1, s := 1, t := tIdQ, y := yTake1,
    input := [0], state := [0], output := [0], next_state := none,
    polaczenia_dzieci := [], rodzice := [some 1],
    podlaczenia_do_a := [⟨1, some 1, some 0⟩, ⟨0, none, some 0⟩] }

/-- Source machine for the C8 evaluation: `m = 2`, output bit 1 set. -/
def mC8B : Machine :=
  { n := 0, m := 2, s := 2, t := tIdQ, y := yTake1,
    input := [], state := [2], output := [2], next_state := none,
    polaczenia_dzieci := [(0, 0)], rodzice := [],
    podlaczenia_do_a := [] }

def hC8 : Heap := fun i => if i = 0 then some mC8A else if i = 1 then some mC8B else none

/-- A minimal machine used by the C9 evaluation. -/
def mC9 : Machine :=
  { n := 0, m := 1, s := 1, t := tIdQ, y := yTake1,
    input := [], state := [0], output := [0], next_state := none,
    polaczenia_dzieci := [], rodzice := [],
    podlaczenia_do_a := [] }

def hC9 : Heap := fun i => if i = 0 then some mC9 else if i = 1 then some mC9 else none

/-- Allocation oracle failing on the second scratch allocation. -/
def allocC9 : Nat → Bool := fun i => i != 1

/-- The C7 fixture: machine 0 created with `n = m = s = 1`, transition
`next_state = NOT input`, identity output, initial state 0, then self-connected
by `ma_connect(A, 0, A, 0, 1)`. -/
def hC7 : Heap :=
  (ma_connect ((ma_create_full (fun _ => none) 0 1 1 1 tNotC7 yTake1 (some [0])).1)
    (some 0) 0 (some 0) 0 1).1

/-- One tick of the singleton batch `[A]` on the C7 fixture. -/
def stepC7 (h : Heap) : Heap := (ma_step allocAll h (some [some 0])).1

/-- The C7 fixture after `k` ticks. -/
def iterC7 : Nat → Heap
  | 0 => hC7
  | k + 1 => stepC7 (iterC7 k)

/-- Closed form of the C7 machine: input bit `inb`, state and output bit `b`. -/
def machC7 (inb b : Nat) : Machine :=
  { n := 1, m := 1, s := 1, t := tNotC7, y := yTake1,
    input := [inb], state := [b], output := [b], next_state := none,
    polaczenia_dzieci := [(0, 0)], rodzice := [some 0],
    podlaczenia_do_a := [⟨0, some 0, some 0⟩] }

/-- Machine 0 of the C2 witness fixture: reads its input bit from machine 1. -/
def mC2A : Machine :=
  { n := 1, m := 1, s := 1, t := tCopyIn, y := yTake1,
    input := [0], state := [0], output := [0], next_state := none,
    polaczenia_dzieci := [(1, 0)], rodzice := [some 1],
    podlaczenia_do_a := [⟨0, some 1, some 0⟩] }

/-- Machine 1 of the C2 witness fixture: reads its input bit from machine 0. -/
def mC2B : Machine :=
  { n := 1, m := 1, s := 1, t := tCopyIn, y := yTake1,
    input := [0], state := [1], output := [1], next_state := none,
    polaczenia_dzieci := [(0, 0)], rodzice := [some 0],
    podlaczenia_do_a := [⟨0, some 0, some 1⟩] }

def hC2 : Heap := fun i => if i = 0 then some mC2A else if i = 1 then some mC2B else none

/-- Machine 0 of the C4 witness fixture (the machine being deleted). -/
def mC4A : Machine :=
  { n := 1, m := 1, s := 1, t := tIdQ, y := yTake1,
    input := [0], state := [0], output := [0], next_state := none,
    polaczenia_dzieci := [(1, 0)], rodzice := [some 1],
    podlaczenia_do_a := [⟨0, some 1, some 0⟩] }

/-- Machine 1 of the C4 witness fixture (the survivor, coupled both ways). -/
def mC4X : Machine :=
  { n := 1, m := 1, s := 1, t := tIdQ, y := yTake1,
    input := [0], state := [0], output := [0], next_state := none,
    polaczenia_dzieci := [(0, 0)], rodzice := [some 0],
    podlaczenia_do_a := [⟨0, some 0, some 1⟩] }

def hC4 : Heap := fun i => if i = 0 then some mC4A else if i = 1 then some mC4X else none

/-- Sink machine of the C5 fixture. -/
def mC5A : Machine :=
  { n := 1, m := 1, s := 1, t := tIdQ, y := yTake1,
    input := [0], state := [0], output := [0], next_state := none,
    polaczenia_dzieci := [], rodzice := [],
    podlaczenia_do_a := [⟨0, none, some 0⟩] }

/-- Source machine of the C5 fixture. -/
def mC5B : Machine :=
  { n := 0, m := 1, s := 1, t := tIdQ, y := yTake1,
    input := [], state := [0], output := [0], next_state := none,
    polaczenia_dzieci := [], rodzice := [],
    podlaczenia_do_a := [] }

def hC5 : Heap := fun i => if i = 0 then some mC5A else if i = 1 then some mC5B else none

/-- The C5 fixture after connecting input bit 0 of machine 0 to output bit 0 of
machine 1 twice in a row. -/
def hC5twice : Heap :=
  (ma_connect ((ma_connect hC5 (some 0) 0 (some 1) 0 1).1) (some 0) 0 (some 1) 0 1).1

/-- A machine with `n = 0` for the C10 witness. -/
def mC10z : Machine :=
  { n := 0, m := 1, s := 1, t := tIdQ, y := yTake1,
    input := [], state := [0], output := [0], next_state := none,
    polaczenia_dzieci := [], rodzice := [],
    podlaczenia_do_a := [] }

/-- A machine with `n = 1` for the C10 witness. -/
def mC10 : Machine :=
  { n := 1, m := 1, s := 1, t := tIdQ, y := yTake1,
    input := [0], state := [0], output := [0], next_state := none,
    polaczenia_dzieci := [], rodzice := [],
    podlaczenia_do_a := [⟨0, none, some 0⟩] }

def hC10 : Heap := fun i => if i = 0 then some mC10z else if i = 1 then some mC10 else none

/-- Machine for the C6 size_t-overflow evaluation: `n = 1`, `m = 2`. -/
def mC6ov : Machine :=
  { n := 1, m := 2, s := 1, t := tIdQ, y := yTake1,
    input := [0], state := [0], output := [0], next_state := none,
    polaczenia_dzieci := [], rodzice := [],
    podlaczenia_do_a := [⟨0, none, some 0⟩] }

def hC6ov : Heap := fun i => if i = 0 then some mC6ov else none

/-! Basic heap-update lemmas. -/

theorem updh_self (h : Heap) (i : Nat) (a : Machine) : updh h i a i = some a := by
  simp [updh]

theorem updh_ne (h : Heap) (i : Nat) (a : Machine) {j : Nat} (hij : j ≠ i) :
    updh h i a j = h j := by
  simp [updh, hij]

/-- C1: evaluation of the refresh phase at the failing input.  Machine 0 has
input bit 1 wired to output bit 0 of machine 1; that source bit is 1 before the
tick, yet after `ma_step` input bit 1 of machine 0 is still 0 (the code set bit
`bit_biore % 64 = 0` of the destination word instead).  This refutes the claim
that the refresh phase copies source bit `k` into input bit `j` when
`j % 64 ≠ k % 64`. -/
theorem refresh_bit_mismatch_C1 :
    ((hC1 0).map (fun mm => (mm.podlaczenia_do_a.getD 1 default).a_z_kad)) = some (some 1)
  ∧ ((hC1 0).map (fun mm => (mm.podlaczenia_do_a.getD 1 default).bit_biore)) = some 0
  ∧ ((hC1 1).map (fun mm => Nat.testBit (mm.output.getD 0 0) 0)) = some true
  ∧ (((ma_step allocAll hC1 (some [some 0])).1 0).map
      (fun mm => Nat.testBit (mm.input.getD 0 0) 1)) = some false := by
  decide

/-- C8: evaluation of the refresh phase at the failing input.  Input bit 1 of
machine 0 has an empty wiring entry and is 0 before the tick, yet the refresh
performed by `ma_step` sets it to 1 while refreshing the wired bit 0 (whose
source bit index is 1): the refresh phase does modify an input bit whose wiring
entry is empty. -/
theorem refresh_touches_unwired_bit_C8 :
    ((hC8 0).map (fun mm => (mm.podlaczenia_do_a.getD 1 default).a_z_kad)) = some none
  ∧ ((hC8 0).map (fun mm => Nat.testBit (mm.input.getD 0 0) 1)) = some false
  ∧ (((ma_step allocAll hC8 (some [some 0])).1 0).map
      (fun mm => Nat.testBit (mm.input.getD 0 0) 1)) = some true := by
  decide

/-- C9: evaluation of the failing error paths of `ma_step`.  On a batch with a
NULL second entry the call returns EINVAL, and on an allocation failure for the
second machine it returns ENOMEM; in both cases the scratch `next_state` buffer
already allocated for machine 0 is still held (not released), whereas a
successful call leaves no scratch buffer behind. -/
theorem step_error_leaks_scratch_C9 :
    (ma_step allocAll hC9 (some [some 0, none])).2 = some Err.EINVAL
  ∧ (((ma_step allocAll hC9 (some [some 0, none])).1 0).map (·.next_state))
      = some (some [0])
  ∧ (ma_step allocC9 hC9 (some [some 0, some 1])).2 = some Err.ENOMEM
  ∧ (((ma_step allocC9 hC9 (some [some 0, some 1])).1 0).map (·.next_state))
      = some (some [0])
  ∧ (((ma_step allocAll hC9 (some [some 0, some 1])).1 0).map (·.next_state))
      = some none := by
  decide

/-- C6: evaluation of the bounds checks at the size_t-overflow failing input.
The machine has `n = 1`, `m = 2`.  A connect of input bits starting at
`in = 2^64 - 1` with `num = 2` is out of range (`in + num = 2^64 + 1 > 1`),
yet the C check computes `in + num` in size_t, which wraps to `1 ≤ n`: the
call is NOT rejected, it returns success and modifies the adjacency graph
(and, in C, writes wiring entries out of bounds — undefined behaviour).  The
same wrap bypasses the `ma_disconnect` check.  A non-wrapping out-of-range
call (`in = 1, num = 1`) is rejected as the claim demands. -/
theorem connect_bounds_overflow_C6 :
    ((hC6ov 0).map (·.n)) = some 1
  ∧ (2 ^ 64 - 1) + 2 > 1
  ∧ (ma_connect hC6ov (some 0) (2 ^ 64 - 1) (some 0) 0 2).2 = none
  ∧ (((ma_connect hC6ov (some 0) (2 ^ 64 - 1) (some 0) 0 2).1 0).map (·.rodzice)) =
      some [some 0]
  ∧ (ma_disconnect hC6ov (some 0) (2 ^ 64 - 1) 2).2 = none
  ∧ (ma_connect hC6ov (some 0) 1 (some 0) 0 1).2 = some Err.EINVAL := by
  decide

/-- C10: `ma_set_input` rejects a machine whose input width is 0 with EINVAL
even when both pointers are valid, rejects null arguments, and succeeds exactly
when the machine and input are non-null and `n ≥ 1`, copying `ILE_UINT n`
words into the input buffer. -/
theorem set_input_spec_C10 :
    (∀ (h : Heap) (inp? : Option (List Nat)),
      ma_set_input h none inp? = (h, some Err.EINVAL))
  ∧ (∀ (h : Heap) (a? : Option Nat),
      ma_set_input h a? none = (h, some Err.EINVAL))
  ∧ (∀ (h : Heap) (aid : Nat) (inp : List Nat) (a : Machine),
      h aid = some a → a.n = 0 →
      ma_set_input h (some aid) (some inp) = (h, some Err.EINVAL))
  ∧ (∀ (h : Heap) (aid : Nat) (inp : List Nat) (a : Machine),
      h aid = some a → 1 ≤ a.n →
      ma_set_input h (some aid) (some inp) =
        (updh h aid { a with input := inp.take (ILE_UINT a.n) }, none)) := by
  refine ⟨?_, ?_, ?_, ?_⟩
  · intro h inp?
    cases inp? <;> rfl
  · intro h a?
    cases a? <;> rfl
  · intro h aid inp a ha hn
    simp only [ma_set_input, ha]
    rw [if_pos hn]
  · intro h aid inp a ha hn
    simp only [ma_set_input, ha]
    rw [if_neg (by omega)]

/-- C10 witness: machine 0 of the fixture has `n = 0` and is rejected; machine
1 has `n = 1` and its input buffer is replaced. -/
theorem set_input_spec_C10_witness :
    (mC10z.n = 0)
  ∧ ma_set_input hC10 (some 0) (some [5]) = (hC10, some Err.EINVAL)
  ∧ ma_set_input hC10 (some 1) (some [5]) =
      (updh hC10 1 { mC10 with input := [5].take (ILE_UINT mC10.n) }, none) := by
  refine ⟨by decide, ?_, ?_⟩
  · exact set_input_spec_C10.2.2.1 hC10 0 [5] mC10z rfl (by decide)
  · exact set_input_spec_C10.2.2.2 hC10 1 [5] mC10 rfl (by decide)

/-! Frame and preservation lemmas for the `ma_step` phases. -/

theorem updh_isSome (h : Heap) (i : Nat) (a : Machine) (x : Nat)
    (hx : (h x).isSome = true) : ((updh h i a) x).isSome = true := by
  by_cases hxi : x = i
  · subst hxi
    simp [updh]
  · rwa [updh_ne h i a hxi]

theorem refreshBit_ne (h : Heap) (aid j : Nat) {x : Nat} (hx : x ≠ aid) :
    refreshBit h aid j x = h x := by
  unfold refreshBit
  cases ha : h aid with
  | none => rfl
  | some a =>
    dsimp only
    cases he : (a.podlaczenia_do_a.getD j default).a_z_kad with
    | none => rfl
    | some bId =>
      dsimp only
      cases hb : h bId with
      | none => rfl
      | some b => exact updh_ne h aid _ hx

theorem refreshBit_isSome (h : Heap) (aid j x : Nat)
    (hx : (h x).isSome = true) : ((refreshBit h aid j) x).isSome = true := by
  unfold refreshBit
  cases ha : h aid with
  | none => exact hx
  | some a =>
    dsimp only
    cases he : (a.podlaczenia_do_a.getD j default).a_z_kad with
    | none => exact hx
    | some bId =>
      dsimp only
      cases hb : h bId with
      | none => exact hx
      | some b => exact updh_isSome h aid _ x hx

theorem foldl_refreshBit_ne (l : List Nat) (h : Heap) (aid : Nat) {x : Nat}
    (hx : x ≠ aid) :
    (l.foldl (fun hh j => refreshBit hh aid j) h) x = h x := by
  induction l generalizing h with
  | nil => rfl
  | cons j rest ih => rw [List.foldl_cons, ih, refreshBit_ne _ _ _ hx]

theorem foldl_refreshBit_isSome (l : List Nat) (h : Heap) (aid x : Nat)
    (hx : (h x).isSome = true) :
    ((l.foldl (fun hh j => refreshBit hh aid j) h) x).isSome = true := by
  induction l generalizing h with
  | nil => exact hx
  | cons j rest ih => exact ih _ (refreshBit_isSome h aid j x hx)

theorem refreshInput_ne (h : Heap) (aid : Nat) {x : Nat} (hx : x ≠ aid) :
    refreshInput h aid x = h x := by
  unfold refreshInput
  cases h aid with
  | none => rfl
  | some a => exact foldl_refreshBit_ne _ h aid hx

theorem refreshInput_isSome (h : Heap) (aid x : Nat)
    (hx : (h x).isSome = true) : ((refreshInput h aid) x).isSome = true := by
  unfold refreshInput
  cases h aid with
  | none => exact hx
  | some a => exact foldl_refreshBit_isSome _ h aid x hx

theorem transOne_ne (h : Heap) (aid : Nat) {x : Nat} (hx : x ≠ aid) :
    transOne h aid x = h x := by
  unfold transOne
  cases h aid with
  | none => rfl
  | some a => exact updh_ne h aid _ hx

theorem transOne_isSome (h : Heap) (aid x : Nat)
    (hx : (h x).isSome = true) : ((transOne h aid) x).isSome = true := by
  unfold transOne
  cases h aid with
  | none => exact hx
  | some a => exact updh_isSome h aid _ x hx

theorem p2one_ne (h : Heap) (e : Option Nat) {x : Nat} (hx : e ≠ some x) :
    p2one h e x = h x := by
  unfold p2one
  cases e with
  | none => rfl
  | some aid =>
    have hxa : x ≠ aid := fun hh => hx (by rw [hh])
    dsimp only
    rw [transOne_ne _ _ hxa, refreshInput_ne _ _ hxa]

theorem p2one_isSome (h : Heap) (e : Option Nat) (x : Nat)
    (hx : (h x).isSome = true) : ((p2one h e) x).isSome = true := by
  unfold p2one
  cases e with
  | none => exact hx
  | some aid =>
    dsimp only
    exact transOne_isSome _ aid x (refreshInput_isSome h aid x hx)

theorem p3one_ne (h : Heap) (e : Option Nat) {x : Nat} (hx : e ≠ some x) :
    p3one h e x = h x := by
  unfold p3one
  cases e with
  | none => rfl
  | some aid =>
    have hxa : x ≠ aid := fun hh => hx (by rw [hh])
    dsimp only
    cases ha : h aid with
    | none => rfl
    | some a =>
      dsimp only
      cases hns : a.next_state with
      | none => rfl
      | some ns => exact updh_ne h aid _ hxa

/-! Liveness and scratch-buffer facts used for the output-consistency claim. -/

theorem stepAlloc_pres (alloc : Nat → Bool) (l : List (Option Nat)) :
    ∀ (h : Heap) (i : Nat) (h1 : Heap), stepAlloc alloc h l i = (h1, none) →
    ∀ x, (h x).isSome = true → (h1 x).isSome = true := by
  induction l with
  | nil =>
    intro h i h1 hr x hx
    cases hr
    exact hx
  | cons e rest ih =>
    intro h i h1 hr x hx
    cases e with
    | none => cases hr
    | some aid =>
      rw [stepAlloc] at hr
      cases ha : h aid with
      | none => rw [ha] at hr; cases hr
      | some a =>
        rw [ha] at hr
        dsimp only at hr
        by_cases hal : alloc i
        · rw [if_pos hal] at hr
          exact ih _ _ _ hr x (updh_isSome h aid _ x hx)
        · rw [if_neg hal] at hr
          cases hr

theorem stepAlloc_mem_isSome (alloc : Nat → Bool) (l : List (Option Nat)) :
    ∀ (h : Heap) (i : Nat) (h1 : Heap), stepAlloc alloc h l i = (h1, none) →
    ∀ aid, (some aid) ∈ l → (h1 aid).isSome = true := by
  induction l with
  | nil =>
    intro h i h1 _ aid hmem
    cases hmem
  | cons e rest ih =>
    intro h i h1 hr aid hmem
    cases e with
    | none => cases hr
    | some b =>
      rw [stepAlloc] at hr
      cases hb : h b with
      | none => rw [hb] at hr; cases hr
      | some a =>
        rw [hb] at hr
        dsimp only at hr
        by_cases hal : alloc i
        · rw [if_pos hal] at hr
          rcases List.mem_cons.mp hmem with hh | hh
          · have haid : aid = b := Option.some.inj hh
            refine stepAlloc_pres alloc rest _ _ _ hr aid ?_
            rw [haid]
            simp [updh_self]
          · exact ih _ _ _ hr aid hh
        · rw [if_neg hal] at hr
          cases hr

/-- The machine at `x` exists and still holds a scratch buffer. -/
def hasNS (h : Heap) (x : Nat) : Prop :=
  ∃ mm : Machine, h x = some mm ∧ mm.next_state.isSome = true

/-- The machine at `x`, if present, has `output = y state`. -/
def outConsistent (h : Heap) (x : Nat) : Prop :=
  ∀ mm : Machine, h x = some mm → mm.output = mm.y mm.state

theorem transOne_self_ns (h : Heap) (aid : Nat)
    (hx : (h aid).isSome = true) : hasNS (transOne h aid) aid := by
  unfold transOne
  cases ha : h aid with
  | none => rw [ha] at hx; cases hx
  | some a =>
    refine ⟨{ a with next_state := some (a.t a.input a.state) }, ?_, rfl⟩
    dsimp only
    exact updh_self h aid _

theorem p2one_self_ns (h : Heap) (aid : Nat)
    (hx : (h aid).isSome = true) : hasNS (p2one h (some aid)) aid := by
  unfold p2one
  exact transOne_self_ns _ aid (refreshInput_isSome h aid aid hx)

theorem p2one_ns_pres (h : Heap) (e : Option Nat) (x : Nat)
    (hx : hasNS h x) : hasNS (p2one h e) x := by
  by_cases hex : e = some x
  · subst hex
    rcases hx with ⟨mm, hmm, _⟩
    exact p2one_self_ns h x (by rw [hmm]; rfl)
  · rcases hx with ⟨mm, hmm, hns⟩
    exact ⟨mm, by rw [p2one_ne h e hex, hmm], hns⟩

theorem stepPhase2_ns_pres (l : List (Option Nat)) :
    ∀ (h : Heap) (x : Nat), hasNS h x → hasNS (stepPhase2 h l) x := by
  induction l with
  | nil => intro h x hx; exact hx
  | cons e rest ih =>
    intro h x hx
    exact ih (p2one h e) x (p2one_ns_pres h e x hx)

theorem stepPhase2_mem_ns (l : List (Option Nat)) :
    ∀ (h : Heap) (aid : Nat), (some aid) ∈ l → (h aid).isSome = true →
    hasNS (stepPhase2 h l) aid := by
  induction l with
  | nil => intro h aid hmem; cases hmem
  | cons e rest ih =>
    intro h aid hmem hx
    rcases List.mem_cons.mp hmem with hh | hh
    · subst hh
      exact stepPhase2_ns_pres rest (p2one h (some aid)) aid (p2one_self_ns h aid hx)
    · exact ih (p2one h e) aid hh (p2one_isSome h e aid hx)

theorem p3one_none (h : Heap) (aid : Nat) (ha : h aid = none) :
    p3one h (some aid) = h := by
  simp only [p3one, ha]

theorem p3one_self_eq (h : Heap) (aid : Nat) (a : Machine) (ha : h aid = some a) :
    (a.next_state = none ∧ (p3one h (some aid)) aid = some a) ∨
    (∃ ns, a.next_state = some ns ∧
      (p3one h (some aid)) aid =
        some { a with state := ns.take (ILE_UINT a.s),
                      output := a.y (ns.take (ILE_UINT a.s)), next_state := none }) := by
  cases hns : a.next_state with
  | none =>
    left
    refine ⟨rfl, ?_⟩
    simp only [p3one, ha, hns]
  | some ns =>
    right
    refine ⟨ns, rfl, ?_⟩
    simp only [p3one, ha, hns, updh_self]

theorem p3one_self_out (h : Heap) (aid : Nat)
    (hx : hasNS h aid) : outConsistent (p3one h (some aid)) aid := by
  rcases hx with ⟨mm, hmm, hns⟩
  intro m2 hm2
  rcases p3one_self_eq h aid mm hmm with ⟨hn0, _⟩ | ⟨ns, _, heq⟩
  · rw [hn0] at hns
    cases hns
  · rw [heq] at hm2
    injection hm2 with hm3
    subst hm3
    rfl

theorem p3one_out_pres (h : Heap) (e : Option Nat) (x : Nat)
    (hx : outConsistent h x) : outConsistent (p3one h e) x := by
  by_cases hex : e = some x
  · subst hex
    intro m2 hm2
    cases ha : h x with
    | none =>
      rw [p3one_none h x ha, ha] at hm2
      cases hm2
    | some a =>
      rcases p3one_self_eq h x a ha with ⟨_, heq⟩ | ⟨ns, _, heq⟩
      · rw [heq] at hm2
        injection hm2 with hm3
        subst hm3
        exact hx _ ha
      · rw [heq] at hm2
        injection hm2 with hm3
        subst hm3
        rfl
  · intro m2 hm2
    rw [p3one_ne h e hex] at hm2
    exact hx m2 hm2

theorem stepPhase3_out_pres (l : List (Option Nat)) :
    ∀ (h : Heap) (x : Nat), outConsistent h x → outConsistent (stepPhase3 h l) x := by
  induction l with
  | nil => intro h x hx; exact hx
  | cons e rest ih =>
    intro h x hx
    exact ih (p3one h e) x (p3one_out_pres h e x hx)

theorem p3one_ns_pres_ne (h : Heap) (e : Option Nat) (x : Nat) (hex : e ≠ some x)
    (hx : hasNS h x) : hasNS (p3one h e) x := by
  rcases hx with ⟨mm, hmm, hns⟩
  exact ⟨mm, by rw [p3one_ne h e hex, hmm], hns⟩

theorem stepPhase3_mem_out (l : List (Option Nat)) :
    ∀ (h : Heap) (aid : Nat), (some aid) ∈ l → hasNS h aid →
    outConsistent (stepPhase3 h l) aid := by
  induction l with
  | nil => intro h aid hmem; cases hmem
  | cons e rest ih =>
    intro h aid hmem hx
    by_cases hex : e = some aid
    · subst hex
      exact stepPhase3_out_pres rest (p3one h (some aid)) aid (p3one_self_out h aid hx)
    · rcases List.mem_cons.mp hmem with hh | hh
      · exact absurd hh.symm hex
      · exact ih (p3one h e) aid hh (p3one_ns_pres_ne h e aid hex hx)

/-- C3: output consistency.  After a successful `ma_create_full`, after a
successful `ma_set_state`, and after the commit phase of a successful
`ma_step`, the (created / targeted / stepped) machine's output vector equals
its output callback applied to its current state vector. -/
theorem output_consistency_C3 :
    (∀ (h : Heap) (newId n m s : Nat) (t : List Nat → List Nat → List Nat)
        (y : List Nat → List Nat) (q? : Option (List Nat)),
      (ma_create_full h newId n m s t y q?).2 = none →
      (((ma_create_full h newId n m s t y q?).1 newId).map (·.output)) =
        (((ma_create_full h newId n m s t y q?).1 newId).map (fun mm => mm.y mm.state)))
  ∧ (∀ (h : Heap) (aid : Nat) (st? : Option (List Nat)),
      (ma_set_state h (some aid) st?).2 = none →
      (((ma_set_state h (some aid) st?).1 aid).map (·.output)) =
        (((ma_set_state h (some aid) st?).1 aid).map (fun mm => mm.y mm.state)))
  ∧ (∀ (alloc : Nat → Bool) (h : Heap) (batch : List (Option Nat)) (aid : Nat),
      (ma_step alloc h (some batch)).2 = none → (some aid) ∈ batch →
      (((ma_step alloc h (some batch)).1 aid).map (·.output)) =
        (((ma_step alloc h (some batch)).1 aid).map (fun mm => mm.y mm.state))) := by
  refine ⟨?_, ?_, ?_⟩
  · intro h newId n m s t y q? hsucc
    cases q? with
    | none => simp [ma_create_full] at hsucc
    | some q =>
      by_cases hms : m = 0 ∨ s = 0
      · simp [ma_create_full, hms] at hsucc
      · simp [ma_create_full, hms, updh_self]
  · intro h aid st? hsucc
    cases st? with
    | none => simp [ma_set_state] at hsucc
    | some st =>
      cases ha : h aid with
      | none => simp [ma_set_state, ha] at hsucc
      | some a => simp [ma_set_state, ha, updh_self]
  · intro alloc h batch aid hsucc hmem
    simp only [ma_step] at hsucc ⊢
    by_cases hb : batch.length = 0
    · rw [if_pos hb] at hsucc
      simp at hsucc
    · rw [if_neg hb] at hsucc ⊢
      rcases hsa : stepAlloc alloc h batch 0 with ⟨h1, e?⟩
      rw [hsa] at hsucc
      cases e? with
      | some e => exact Option.noConfusion (show some e = (none : Option Err) from hsucc)
      | none =>
        dsimp only at hsucc ⊢
        have h1s : (h1 aid).isSome = true :=
          stepAlloc_mem_isSome alloc batch h 0 h1 hsa aid hmem
        have hns : hasNS (stepPhase2 h1 batch) aid :=
          stepPhase2_mem_ns batch h1 aid hmem h1s
        have hout : outConsistent (stepPhase3 (stepPhase2 h1 batch) batch) aid :=
          stepPhase3_mem_out batch (stepPhase2 h1 batch) aid hmem hns
        cases hfin : (stepPhase3 (stepPhase2 h1 batch) batch) aid with
        | none => simp [hfin]
        | some mm => simp [hfin, hout mm hfin]

/-- C3 witness: the three parts applied at concrete calls on the fixtures. -/
theorem output_consistency_C3_witness :
    ((ma_create_full (fun _ => none) 0 1 1 1 tNotC7 yTake1 (some [0])).2 = none)
  ∧ ((((ma_create_full (fun _ => none) 0 1 1 1 tNotC7 yTake1 (some [0])).1 0).map (·.output)) =
      (((ma_create_full (fun _ => none) 0 1 1 1 tNotC7 yTake1 (some [0])).1 0).map
        (fun mm => mm.y mm.state)))
  ∧ ((((ma_set_state hC2 (some 0) (some [1])).1 0).map (·.output)) =
      (((ma_set_state hC2 (some 0) (some [1])).1 0).map (fun mm => mm.y mm.state)))
  ∧ ((((ma_step allocAll hC2 (some [some 0, some 1])).1 0).map (·.output)) =
      (((ma_step allocAll hC2 (some [some 0, some 1])).1 0).map (fun mm => mm.y mm.state))) := by
  refine ⟨rfl, ?_, ?_, ?_⟩
  · exact output_consistency_C3.1 (fun _ => none) 0 1 1 1 tNotC7 yTake1 (some [0]) rfl
  · exact output_consistency_C3.2.1 hC2 0 (some [1]) rfl
  · exact output_consistency_C3.2.2 allocAll hC2 [some 0, some 1] 0 rfl (by simp)

theorem range_one_eq : List.range 1 = [0] := rfl

theorem stepC7_toggle (h : Heap) (i b : Nat) (hi : i ≤ 1) (hb : b ≤ 1)
    (h0 : h 0 = some (machC7 i b)) : (stepC7 h) 0 = some (machC7 b (1 - b)) := by
  interval_cases i <;> interval_cases b <;>
    simp [stepC7, ma_step, stepAlloc, allocAll, stepPhase2, stepPhase3, p2one, p3one,
      transOne, refreshInput, refreshBit, machC7, updh, h0, tNotC7, yTake1, ILE_UINT,
      MASK64, List.getD, range_one_eq]

theorem iterC7_closed : ∀ k : Nat, ∃ i : Nat, i ≤ 1 ∧
    (iterC7 k) 0 = some (machC7 i (k % 2)) := by
  intro k
  induction k with
  | zero => exact ⟨0, Nat.zero_le 1, rfl⟩
  | succ k ih =>
    rcases ih with ⟨i, hi, heq⟩
    have hb : k % 2 ≤ 1 := Nat.le_of_lt_succ (Nat.mod_lt k (by omega))
    have hstep : (stepC7 (iterC7 k)) 0 = some (machC7 (k % 2) (1 - k % 2)) :=
      stepC7_toggle (iterC7 k) i (k % 2) hi hb heq
    have hmod : (k + 1) % 2 = 1 - k % 2 := by omega
    exact ⟨k % 2, hb, by rw [iterC7, hstep, hmod]⟩

/-- C7: the self-connected NOT machine of the fixture toggles its single
output bit on every tick: after `k` calls of `ma_step` on the singleton batch,
its output word is `k % 2`, so the output sequence is 0, 1, 0, 1, ... -/
theorem feedback_toggle_C7 : ∀ k : Nat, ((iterC7 k) 0).map (·.output) = some [k % 2] := by
  intro k
  rcases iterC7_closed k with ⟨i, _, heq⟩
  rw [heq]
  rfl

/-! List helper lemmas for wiring-table updates. -/

theorem getD_set_self_of_lt {α : Type} (l : List α) (i : Nat) (a d : α)
    (h : i < l.length) : (l.set i a).getD i d = a := by
  simp [List.getD, List.getElem?_set_self, h]

theorem getD_set_ne_idx {α : Type} (l : List α) (i j : Nat) (a d : α)
    (h : j ≠ i) : (l.set i a).getD j d = l.getD j d := by
  simp [List.getD, List.getElem?_set_ne (Ne.symm h)]

/-- The wiring update performed by the second loop of `ma_connect`. -/
def wireFold (w : List Conn) (inOff outOff num oi ii : Nat) : List Conn :=
  (List.range num).foldl
    (fun w2 i => w2.set (inOff + i)
      { bit_biore := outOff + i, a_z_kad := some oi, ja := some ii }) w

theorem wireFold_length (w : List Conn) (inOff outOff num oi ii : Nat) :
    (wireFold w inOff outOff num oi ii).length = w.length := by
  induction num with
  | zero => rfl
  | succ n ih =>
    rw [wireFold, List.range_succ, List.foldl_append, List.foldl_cons, List.foldl_nil,
      List.length_set]
    exact ih

theorem wireFold_getD (w : List Conn) (inOff outOff num oi ii : Nat) (j : Nat) :
    (wireFold w inOff outOff num oi ii).getD j default =
      if inOff ≤ j ∧ j < inOff + num ∧ j < w.length
      then { bit_biore := outOff + (j - inOff), a_z_kad := some oi, ja := some ii }
      else w.getD j default := by
  induction num with
  | zero =>
    rw [if_neg (by omega)]
    rfl
  | succ n ih =>
    rw [wireFold, List.range_succ, List.foldl_append, List.foldl_cons, List.foldl_nil]
    rw [show (List.range n).foldl
      (fun w2 i => w2.set (inOff + i)
        { bit_biore := outOff + i, a_z_kad := some oi, ja := some ii }) w =
      wireFold w inOff outOff n oi ii from rfl]
    by_cases hj : j = inOff + n
    · subst hj
      by_cases hlen : inOff + n < w.length
      · rw [getD_set_self_of_lt _ _ _ _ (by rw [wireFold_length]; exact hlen)]
        rw [if_pos ⟨by omega, by omega, hlen⟩]
        simp
      · rw [List.set_eq_of_length_le (by rw [wireFold_length]; omega)]
        rw [ih, if_neg (by omega), if_neg (by omega)]
    · rw [getD_set_ne_idx _ _ _ _ _ hj, ih]
      by_cases hc : inOff ≤ j ∧ j < inOff + n ∧ j < w.length
      · rw [if_pos hc, if_pos ⟨hc.1, by omega, hc.2.2⟩]
      · rw [if_neg hc, if_neg (fun hcc => hc ⟨hcc.1, by omega, hcc.2.2⟩)]

theorem appendKids_eq (h : Heap) (outId inId inOff num : Nat) (aOut : Machine)
    (hout : h outId = some aOut) :
    appendKids h outId inId inOff num =
      updh h outId
        { aOut with
          polaczenia_dzieci :=
            aOut.polaczenia_dzieci ++ (List.range num).map fun i => (inId, inOff + i) } := by
  simp only [appendKids, hout]

theorem setWires_eq (h : Heap) (inId outId inOff outOff num : Nat) (aIn : Machine)
    (hin : h inId = some aIn) :
    setWires h inId outId inOff outOff num =
      updh h inId
        { aIn with
          podlaczenia_do_a := wireFold aIn.podlaczenia_do_a inOff outOff num outId inId } := by
  simp only [setWires, hin]
  rfl

theorem addParent_eq (h : Heap) (inId outId : Nat) (aIn : Machine)
    (hin : h inId = some aIn) :
    addParent h inId outId =
      if some outId ∈ aIn.rodzice then h
      else updh h inId { aIn with rodzice := aIn.rodzice ++ [some outId] } := by
  simp only [addParent, hin]

theorem addParent_val (h2 : Heap) (inId outId : Nat) (W : Machine)
    (hW : h2 inId = some W) :
    (addParent h2 inId outId) inId =
      some
        { W with
          rodzice :=
            if some outId ∈ W.rodzice then W.rodzice else W.rodzice ++ [some outId] } := by
  rw [addParent_eq h2 inId outId W hW]
  by_cases hmem : some outId ∈ W.rodzice
  · rw [if_pos hmem, if_pos hmem, hW]
  · rw [if_neg hmem, if_neg hmem, updh_self]

theorem addParent_ne (h2 : Heap) (inId outId : Nat) {x : Nat} (hx : x ≠ inId) :
    (addParent h2 inId outId) x = h2 x := by
  unfold addParent
  cases hin2 : h2 inId with
  | none => rfl
  | some a =>
    dsimp only
    by_cases hmem : some outId ∈ a.rodzice
    · rw [if_pos hmem]
    · rw [if_neg hmem, updh_ne _ _ _ hx]

/-- C5 counterexample: connecting input bit 0 of machine 0 to output bit 0 of
machine 1 twice in a row leaves machine 0 listed twice in machine 1's child
list, refuting "each related machine appears at most once in the other's ...
child sets".  The parent side is deduplicated as claimed. -/
theorem connect_child_duplicates_C5 :
    ((hC5twice 1).map (·.polaczenia_dzieci)) = some [(0, 0), (0, 0)]
  ∧ ((hC5twice 1).map
        (fun mm => decide ((mm.polaczenia_dzieci.filter fun nd => nd.1 == 0).length ≤ 1))) =
      some false
  ∧ ((hC5twice 0).map (·.rodzice)) = some [some 1] := by
  refine ⟨by decide, by decide, by decide⟩

/-- C5 (amended): a successful `ma_connect(a_in, in, a_out, out, num)` sets
`a_in.wiring[in+i] = (a_out, out+i)` for `i < num` and leaves the other wiring
entries unchanged; it adds `a_out` to `a_in`'s parent list only if that
machine is not already present (set semantics on the parent side); but on the
child side it unconditionally appends one node per connected bit to `a_out`'s
child list, so `a_in` may appear there many times. -/
theorem connect_effect_C5 (h : Heap) (inId outId inOff outOff num : Nat)
    (aIn aOut : Machine) (hin : h inId = some aIn) (hout : h outId = some aOut)
    (hnum : num ≠ 0) (hbi : inOff + num ≤ aIn.n) (hbo : outOff + num ≤ aOut.m)
    (hlen : aIn.podlaczenia_do_a.length = aIn.n) :
    (ma_connect h (some inId) inOff (some outId) outOff num).2 = none
  ∧ (∀ i, i < num →
      (((ma_connect h (some inId) inOff (some outId) outOff num).1 inId).map
          (fun mm => mm.podlaczenia_do_a.getD (inOff + i) default)) =
        some { bit_biore := outOff + i, a_z_kad := some outId, ja := some inId })
  ∧ (∀ j, j < inOff ∨ inOff + num ≤ j →
      (((ma_connect h (some inId) inOff (some outId) outOff num).1 inId).map
          (fun mm => mm.podlaczenia_do_a.getD j default)) =
        some (aIn.podlaczenia_do_a.getD j default))
  ∧ (((ma_connect h (some inId) inOff (some outId) outOff num).1 outId).map
        (·.polaczenia_dzieci)) =
      some (aOut.polaczenia_dzieci ++ (List.range num).map fun i => (inId, inOff + i))
  ∧ (((ma_connect h (some inId) inOff (some outId) outOff num).1 inId).map
        (·.rodzice)) =
      some (if some outId ∈ aIn.rodzice then aIn.rodzice
            else aIn.rodzice ++ [some outId]) := by
  have hr : ma_connect h (some inId) inOff (some outId) outOff num =
      (addParent (setWires (appendKids h outId inId inOff num)
        inId outId inOff outOff num) inId outId, none) := by
    simp only [ma_connect, hin, hout]
    rw [if_neg (by push_neg; exact ⟨hnum, by omega, by omega⟩)]
  by_cases hio : outId = inId
  · subst hio
    have haio : aIn = aOut := Option.some.inj (hin.symm.trans hout)
    subst haio
    have h1in : appendKids h outId outId inOff num outId =
        some { aIn with
               polaczenia_dzieci := aIn.polaczenia_dzieci ++
                 (List.range num).map fun i => (outId, inOff + i) } := by
      rw [appendKids_eq h outId outId inOff num aIn hout]
      exact updh_self _ _ _
    have h2in : setWires (appendKids h outId outId inOff num)
        outId outId inOff outOff num outId =
        some { aIn with
               polaczenia_dzieci := aIn.polaczenia_dzieci ++
                 (List.range num).map fun i => (outId, inOff + i),
               podlaczenia_do_a := wireFold aIn.podlaczenia_do_a inOff outOff num outId outId } := by
      rw [setWires_eq (appendKids h outId outId inOff num) outId outId inOff outOff num
        _ h1in]
      exact updh_self _ _ _
    have hval : (ma_connect h (some outId) inOff (some outId) outOff num).1 outId =
        some { aIn with
               polaczenia_dzieci := aIn.polaczenia_dzieci ++
                 (List.range num).map fun i => (outId, inOff + i),
               podlaczenia_do_a := wireFold aIn.podlaczenia_do_a inOff outOff num outId outId,
               rodzice := if some outId ∈ aIn.rodzice then aIn.rodzice
                 else aIn.rodzice ++ [some outId] } := by
      rw [hr]
      exact addParent_val _ outId outId _ h2in
    refine ⟨by rw [hr], ?_, ?_, ?_, ?_⟩
    · intro i hi
      rw [hval]
      dsimp only [Option.map]
      rw [wireFold_getD, if_pos ⟨by omega, by omega, by omega⟩]
      simp
    · intro j hj
      rw [hval]
      dsimp only [Option.map]
      rw [wireFold_getD, if_neg (by omega)]
    · rw [hval]
      rfl
    · rw [hval]
      rfl
  · have h1in : appendKids h outId inId inOff num inId = some aIn := by
      rw [appendKids_eq h outId inId inOff num aOut hout,
        updh_ne _ _ _ (fun hc => hio hc.symm), hin]
    have h1out : appendKids h outId inId inOff num outId =
        some { aOut with
               polaczenia_dzieci := aOut.polaczenia_dzieci ++
                 (List.range num).map fun i => (inId, inOff + i) } := by
      rw [appendKids_eq h outId inId inOff num aOut hout]
      exact updh_self _ _ _
    have h2in : setWires (appendKids h outId inId inOff num)
        inId outId inOff outOff num inId =
        some { aIn with
               podlaczenia_do_a := wireFold aIn.podlaczenia_do_a inOff outOff num outId inId } := by
      rw [setWires_eq (appendKids h outId inId inOff num) inId outId inOff outOff num
        aIn h1in]
      exact updh_self _ _ _
    have h2out : setWires (appendKids h outId inId inOff num)
        inId outId inOff outOff num outId =
        some { aOut with
               polaczenia_dzieci := aOut.polaczenia_dzieci ++
                 (List.range num).map fun i => (inId, inOff + i) } := by
      rw [setWires_eq (appendKids h outId inId inOff num) inId outId inOff outOff num
        aIn h1in, updh_ne _ _ _ hio]
      exact h1out
    have hvalIn : (ma_connect h (some inId) inOff (some outId) outOff num).1 inId =
        some { aIn with
               podlaczenia_do_a := wireFold aIn.podlaczenia_do_a inOff outOff num outId inId,
               rodzice := if some outId ∈ aIn.rodzice then aIn.rodzice
                 else aIn.rodzice ++ [some outId] } := by
      rw [hr]
      exact addParent_val _ inId outId _ h2in
    have hvalOut : (ma_connect h (some inId) inOff (some outId) outOff num).1 outId =
        some { aOut with
               polaczenia_dzieci := aOut.polaczenia_dzieci ++
                 (List.range num).map fun i => (inId, inOff + i) } := by
      rw [hr]
      dsimp only
      rw [addParent_ne _ inId outId hio]
      exact h2out
    refine ⟨by rw [hr], ?_, ?_, ?_, ?_⟩
    · intro i hi
      rw [hvalIn]
      dsimp only [Option.map]
      rw [wireFold_getD, if_pos ⟨by omega, by omega, by omega⟩]
      simp
    · intro j hj
      rw [hvalIn]
      dsimp only [Option.map]
      rw [wireFold_getD, if_neg (by omega)]
    · rw [hvalOut]
      rfl
    · rw [hvalIn]
      rfl

/-- C5 witness: the amended claim applied at the first connect on the C5
fixture. -/
theorem connect_effect_C5_witness :
    ((ma_connect hC5 (some 0) 0 (some 1) 0 1).2 = none)
  ∧ (((ma_connect hC5 (some 0) 0 (some 1) 0 1).1 1).map (·.polaczenia_dzieci)) =
      some (mC5B.polaczenia_dzieci ++ (List.range 1).map fun i => (0, 0 + i))
  ∧ (((ma_connect hC5 (some 0) 0 (some 1) 0 1).1 0).map (·.rodzice)) =
      some (if some 1 ∈ mC5A.rodzice then mC5A.rodzice else mC5A.rodzice ++ [some 1]) := by
  have hc := connect_effect_C5 hC5 0 1 0 0 1 mC5A mC5B rfl rfl (by decide)
    (by decide) (by decide) (by decide)
  exact ⟨hc.1, hc.2.2.2.1, hc.2.2.2.2⟩

/-! The refresh-transition phase reads outputs only and never writes them:
these lemmas make the order-independence of `ma_step` provable. -/

theorem refreshBit_out (h : Heap) (aid j z : Nat) :
    outM (refreshBit h aid j) z = outM h z := by
  by_cases hz : z = aid
  · subst hz
    unfold outM refreshBit
    cases ha : h z with
    | none => dsimp only; rw [ha]
    | some a =>
      dsimp only
      cases he : (a.podlaczenia_do_a.getD j default).a_z_kad with
      | none => dsimp only; rw [ha]
      | some bId =>
        dsimp only
        cases hb : h bId with
        | none => dsimp only; rw [ha]
        | some b =>
          dsimp only
          rw [updh_self]
          rfl
  · unfold outM
    rw [refreshBit_ne h aid j hz]

theorem foldl_refreshBit_out (l : List Nat) :
    ∀ (h : Heap) (aid z : Nat),
    outM (l.foldl (fun hh j => refreshBit hh aid j) h) z = outM h z := by
  induction l with
  | nil => intro h aid z; rfl
  | cons j rest ih =>
    intro h aid z
    rw [List.foldl_cons, ih, refreshBit_out]

theorem refreshInput_out (h : Heap) (aid z : Nat) :
    outM (refreshInput h aid) z = outM h z := by
  unfold refreshInput
  cases ha : h aid with
  | none => rfl
  | some a => exact foldl_refreshBit_out _ h aid z

theorem transOne_out (h : Heap) (aid z : Nat) :
    outM (transOne h aid) z = outM h z := by
  by_cases hz : z = aid
  · subst hz
    unfold outM transOne
    cases ha : h z with
    | none => dsimp only; rw [ha]
    | some a =>
      dsimp only
      rw [updh_self]
      rfl
  · unfold outM
    rw [transOne_ne h aid hz]

theorem p2one_out (h : Heap) (e : Option Nat) (z : Nat) :
    outM (p2one h e) z = outM h z := by
  cases e with
  | none => rfl
  | some aid =>
    unfold p2one
    rw [transOne_out, refreshInput_out]

theorem refreshBit_congr (h₁ h₂ : Heap) (aid j : Nat)
    (hx : h₁ aid = h₂ aid) (hout : ∀ z, outM h₁ z = outM h₂ z) :
    (refreshBit h₁ aid j) aid = (refreshBit h₂ aid j) aid := by
  unfold refreshBit
  rw [← hx]
  cases ha : h₁ aid with
  | none => exact hx
  | some a =>
    dsimp only
    cases he : (a.podlaczenia_do_a.getD j default).a_z_kad with
    | none => exact hx
    | some bId =>
      dsimp only
      have hob := hout bId
      unfold outM at hob
      cases hb₁ : h₁ bId with
      | none =>
        rw [hb₁] at hob
        cases hb₂ : h₂ bId with
        | none => exact hx
        | some b₂ => rw [hb₂] at hob; cases hob
      | some b₁ =>
        rw [hb₁] at hob
        cases hb₂ : h₂ bId with
        | none => rw [hb₂] at hob; cases hob
        | some b₂ =>
          rw [hb₂] at hob
          have hbout : b₁.output = b₂.output := by
            injection hob
          dsimp only
          rw [updh_self, updh_self, hbout]

theorem refreshFold_congr (l : List Nat) :
    ∀ (h₁ h₂ : Heap) (aid : Nat), h₁ aid = h₂ aid → (∀ z, outM h₁ z = outM h₂ z) →
    ((l.foldl (fun hh j => refreshBit hh aid j) h₁) aid =
       (l.foldl (fun hh j => refreshBit hh aid j) h₂) aid)
  ∧ (∀ z, outM (l.foldl (fun hh j => refreshBit hh aid j) h₁) z =
       outM (l.foldl (fun hh j => refreshBit hh aid j) h₂) z) := by
  induction l with
  | nil => exact fun h₁ h₂ aid hx hout => ⟨hx, hout⟩
  | cons j rest ih =>
    intro h₁ h₂ aid hx hout
    rw [List.foldl_cons, List.foldl_cons]
    exact ih (refreshBit h₁ aid j) (refreshBit h₂ aid j) aid
      (refreshBit_congr h₁ h₂ aid j hx hout)
      (fun z => by rw [refreshBit_out, refreshBit_out]; exact hout z)

theorem refreshInput_congr (h₁ h₂ : Heap) (aid : Nat)
    (hx : h₁ aid = h₂ aid) (hout : ∀ z, outM h₁ z = outM h₂ z) :
    (refreshInput h₁ aid) aid = (refreshInput h₂ aid) aid := by
  unfold refreshInput
  rw [← hx]
  cases ha : h₁ aid with
  | none => exact hx
  | some a => exact (refreshFold_congr (List.range a.n) h₁ h₂ aid hx hout).1

theorem transOne_val_congr (h₁ h₂ : Heap) (x : Nat) (hx : h₁ x = h₂ x) :
    (transOne h₁ x) x = (transOne h₂ x) x := by
  unfold transOne
  rw [← hx]
  cases ha : h₁ x with
  | none => exact hx
  | some a =>
    dsimp only
    rw [updh_self, updh_self]

theorem p2one_congr (h₁ h₂ : Heap) (x : Nat)
    (hx : h₁ x = h₂ x) (hout : ∀ z, outM h₁ z = outM h₂ z) :
    (p2one h₁ (some x)) x = (p2one h₂ (some x)) x := by
  unfold p2one
  dsimp only
  exact transOne_val_congr (refreshInput h₁ x) (refreshInput h₂ x) x
    (refreshInput_congr h₁ h₂ x hx hout)

theorem stepPhase2_not_mem (l : List (Option Nat)) :
    ∀ (h : Heap) (x : Nat), (some x) ∉ l → (stepPhase2 h l) x = h x := by
  induction l with
  | nil => intro h x _; rfl
  | cons e rest ih =>
    intro h x hx
    rw [stepPhase2, List.foldl_cons]
    have hex : e ≠ some x := fun hc => hx (by rw [hc]; exact List.mem_cons_self _ _)
    have hxr : (some x) ∉ rest := fun hc => hx (List.mem_cons_of_mem _ hc)
    rw [show rest.foldl p2one (p2one h e) = stepPhase2 (p2one h e) rest from rfl]
    rw [ih (p2one h e) x hxr, p2one_ne h e hex]

theorem stepPhase2_mem (l : List (Option Nat)) :
    ∀ (h : Heap) (x : Nat), (some x) ∈ l → l.Nodup →
    (stepPhase2 h l) x = (p2one h (some x)) x := by
  induction l with
  | nil => intro h x hmem; cases hmem
  | cons e rest ih =>
    intro h x hmem hnd
    rw [stepPhase2, List.foldl_cons,
      show rest.foldl p2one (p2one h e) = stepPhase2 (p2one h e) rest from rfl]
    by_cases hex : e = some x
    · subst hex
      have hxr : (some x) ∉ rest := (List.nodup_cons.mp hnd).1
      exact stepPhase2_not_mem rest (p2one h (some x)) x hxr
    · have hxr : (some x) ∈ rest := by
        rcases List.mem_cons.mp hmem with hh | hh
        · exact absurd hh.symm hex
        · exact hh
      rw [ih (p2one h e) x hxr (List.nodup_cons.mp hnd).2]
      exact p2one_congr (p2one h e) h x (p2one_ne h e hex) (fun z => p2one_out h e z)

theorem p3one_val_congr (h₁ h₂ : Heap) (x : Nat) (hx : h₁ x = h₂ x) :
    (p3one h₁ (some x)) x = (p3one h₂ (some x)) x := by
  cases ha : h₁ x with
  | none =>
    have ha2 : h₂ x = none := hx.symm.trans ha
    rw [p3one_none h₁ x ha, p3one_none h₂ x ha2]
    exact hx
  | some a =>
    have ha2 : h₂ x = some a := hx.symm.trans ha
    rcases p3one_self_eq h₁ x a ha with ⟨hn, he1⟩ | ⟨ns, hn, he1⟩
    · rcases p3one_self_eq h₂ x a ha2 with ⟨_, he2⟩ | ⟨ns2, hn2, he2⟩
      · rw [he1, he2]
      · rw [hn] at hn2; cases hn2
    · rcases p3one_self_eq h₂ x a ha2 with ⟨hn2, he2⟩ | ⟨ns2, hn2, he2⟩
      · rw [hn] at hn2; cases hn2
      · rw [hn] at hn2
        injection hn2 with hns
        rw [he1, he2, hns]

theorem stepPhase3_not_mem (l : List (Option Nat)) :
    ∀ (h : Heap) (x : Nat), (some x) ∉ l → (stepPhase3 h l) x = h x := by
  induction l with
  | nil => intro h x _; rfl
  | cons e rest ih =>
    intro h x hx
    rw [stepPhase3, List.foldl_cons]
    have hex : e ≠ some x := fun hc => hx (by rw [hc]; exact List.mem_cons_self _ _)
    have hxr : (some x) ∉ rest := fun hc => hx (List.mem_cons_of_mem _ hc)
    rw [show rest.foldl p3one (p3one h e) = stepPhase3 (p3one h e) rest from rfl]
    rw [ih (p3one h e) x hxr, p3one_ne h e hex]

theorem stepPhase3_mem (l : List (Option Nat)) :
    ∀ (h : Heap) (x : Nat), (some x) ∈ l → l.Nodup →
    (stepPhase3 h l) x = (p3one h (some x)) x := by
  induction l with
  | nil => intro h x hmem; cases hmem
  | cons e rest ih =>
    intro h x hmem hnd
    rw [stepPhase3, List.foldl_cons,
      show rest.foldl p3one (p3one h e) = stepPhase3 (p3one h e) rest from rfl]
    by_cases hex : e = some x
    · subst hex
      have hxr : (some x) ∉ rest := (List.nodup_cons.mp hnd).1
      exact stepPhase3_not_mem rest (p3one h (some x)) x hxr
    · have hxr : (some x) ∈ rest := by
        rcases List.mem_cons.mp hmem with hh | hh
        · exact absurd hh.symm hex
        · exact hh
      rw [ih (p3one h e) x hxr (List.nodup_cons.mp hnd).2]
      exact p3one_val_congr (p3one h e) h x (p3one_ne h e hex)

/-- The machine record after the scratch-buffer allocation of `ma_step`. -/
def allocSet (a : Machine) : Machine :=
  { a with next_state := some (List.replicate (ILE_UINT a.s) 0) }

/-- Closed form of the heap after the allocation loop of `ma_step` on a batch
of live machines, when every allocation succeeds. -/
def allocH (h : Heap) (l : List Nat) : Heap :=
  fun x => if x ∈ l then (h x).map allocSet else h x

theorem allocH_out (h : Heap) (l : List Nat) (z : Nat) :
    outM (allocH h l) z = outM h z := by
  unfold outM allocH
  by_cases hz : z ∈ l
  · rw [if_pos hz]
    cases h z <;> rfl
  · rw [if_neg hz]

theorem allocH_congr (h : Heap) (l₁ l₂ : List Nat)
    (hm : ∀ x, x ∈ l₁ ↔ x ∈ l₂) : allocH h l₁ = allocH h l₂ := by
  funext x
  unfold allocH
  by_cases hx : x ∈ l₁
  · rw [if_pos hx, if_pos ((hm x).mp hx)]
  · rw [if_neg hx, if_neg (fun hc => hx ((hm x).mpr hc))]

theorem stepAlloc_allocAll (l : List Nat) :
    ∀ (h : Heap) (i : Nat), (∀ x ∈ l, (h x).isSome = true) →
    stepAlloc allocAll h (l.map some) i = (allocH h l, none) := by
  induction l with
  | nil =>
    intro h i _
    have hh : allocH h [] = h := funext fun x => by simp [allocH]
    rw [hh]
    rfl
  | cons y rest ih =>
    intro h i hl
    cases hy : h y with
    | none =>
      have := hl y (List.mem_cons_self _ _)
      rw [hy] at this
      cases this
    | some a =>
      rw [List.map_cons, stepAlloc, hy]
      dsimp only [allocAll]
      rw [if_pos rfl]
      have hrest : ∀ x ∈ rest, ((updh h y (allocSet a)) x).isSome = true :=
        fun x hx => updh_isSome h y (allocSet a) x (hl x (List.mem_cons_of_mem _ hx))
      rw [show (updh h y
        { a with next_state := some (List.replicate (ILE_UINT a.s) 0) }) =
        updh h y (allocSet a) from rfl]
      rw [ih (updh h y (allocSet a)) (i + 1) hrest]
      have hheq : allocH (updh h y (allocSet a)) rest = allocH h (y :: rest) := by
        funext x
        unfold allocH
        by_cases hxy : x = y
        · subst hxy
          by_cases hxr : x ∈ rest
          · rw [if_pos hxr, if_pos (List.mem_cons_self _ _), updh_self, hy]
            rfl
          · rw [if_neg hxr, if_pos (List.mem_cons_self _ _), updh_self, hy]
            rfl
        · have hiff : x ∈ y :: rest ↔ x ∈ rest := by
            rw [List.mem_cons]
            exact ⟨fun hc => hc.resolve_left hxy, Or.inr⟩
          by_cases hxr : x ∈ rest
          · rw [if_pos hxr, if_pos (hiff.mpr hxr), updh_ne h y _ hxy]
          · rw [if_neg hxr, if_neg (fun hc => hxr (hiff.mp hc)), updh_ne h y _ hxy]
      rw [hheq]

theorem ma_step_allocAll_eq (l : List Nat) (h : Heap) (hne : l ≠ [])
    (hl : ∀ x ∈ l, (h x).isSome = true) :
    ma_step allocAll h (some (l.map some)) =
      (stepPhase3 (stepPhase2 (allocH h l) (l.map some)) (l.map some), none) := by
  simp only [ma_step]
  rw [if_neg (by simpa using hne), stepAlloc_allocAll l h 0 hl]

/-- C2: determinism / order independence of the synchronous tick.  For a fixed
heap and wiring, stepping two different orderings of the same duplicate-free
batch of live machines produces identical results: the full post-call heaps
(hence every machine's post-tick state and output vectors) and the return
values coincide, including under self-connections or connection cycles. -/
theorem step_order_independent_C2 (h : Heap) (l₁ l₂ : List Nat)
    (hnd : l₁.Nodup) (hperm : l₁.Perm l₂)
    (hl : ∀ x ∈ l₁, (h x).isSome = true) :
    ma_step allocAll h (some (l₁.map some)) = ma_step allocAll h (some (l₂.map some)) := by
  by_cases hnil : l₁ = []
  · subst hnil
    rw [List.Perm.eq_nil hperm.symm]
  · have hnd₂ : l₂.Nodup := hperm.nodup_iff.mp hnd
    have hmem : ∀ x, x ∈ l₁ ↔ x ∈ l₂ := fun x => hperm.mem_iff
    have hl₂ : ∀ x ∈ l₂, (h x).isSome = true := fun x hx => hl x ((hmem x).mpr hx)
    have hnil₂ : l₂ ≠ [] := fun hc => hnil (List.Perm.eq_nil (hc ▸ hperm))
    rw [ma_step_allocAll_eq l₁ h hnil hl, ma_step_allocAll_eq l₂ h hnil₂ hl₂,
      allocH_congr h l₂ l₁ (fun x => (hmem x).symm)]
    have hndm₁ : (l₁.map some).Nodup := hnd.map (Option.some_injective Nat)
    have hndm₂ : (l₂.map some).Nodup := hnd₂.map (Option.some_injective Nat)
    have hheap : stepPhase3 (stepPhase2 (allocH h l₁) (l₁.map some)) (l₁.map some) =
        stepPhase3 (stepPhase2 (allocH h l₁) (l₂.map some)) (l₂.map some) := by
      funext x
      by_cases hx : x ∈ l₁
      · have hx₂ : x ∈ l₂ := (hmem x).mp hx
        have hmm₁ : (some x) ∈ l₁.map some := List.mem_map_of_mem _ hx
        have hmm₂ : (some x) ∈ l₂.map some := List.mem_map_of_mem _ hx₂
        rw [stepPhase3_mem _ _ _ hmm₁ hndm₁, stepPhase3_mem _ _ _ hmm₂ hndm₂]
        apply p3one_val_congr
        rw [stepPhase2_mem _ _ _ hmm₁ hndm₁, stepPhase2_mem _ _ _ hmm₂ hndm₂]
      · have hnm₁ : (some x) ∉ l₁.map some := by
          intro hc
          rcases List.mem_map.mp hc with ⟨w, hw, hwx⟩
          rw [Option.some.injEq] at hwx
          exact hx (hwx ▸ hw)
        have hnm₂ : (some x) ∉ l₂.map some := by
          intro hc
          rcases List.mem_map.mp hc with ⟨w, hw, hwx⟩
          rw [Option.some.injEq] at hwx
          exact hx ((hmem x).mpr (hwx ▸ hw))
        rw [stepPhase3_not_mem _ _ _ hnm₁, stepPhase3_not_mem _ _ _ hnm₂,
          stepPhase2_not_mem _ _ _ hnm₁, stepPhase2_not_mem _ _ _ hnm₂]
    rw [hheap]

/-- C2 witness: the two orderings of the two-machine cycle fixture. -/
theorem step_order_independent_C2_witness :
    (([0, 1] : List Nat).Nodup)
  ∧ ma_step allocAll hC2 (some ([0, 1].map some)) =
      ma_step allocAll hC2 (some ([1, 0].map some)) := by
  refine ⟨by decide, ?_⟩
  exact step_order_independent_C2 hC2 [0, 1] [1, 0] (by decide)
    (List.Perm.swap 1 0 []) (by decide)

/-! Lemmas about the three cleanup loops of `ma_delete`. -/

theorem clearEntrySrc_proj (A : Nat) (h : Heap) (nd : Nat × Nat) (y : Nat)
    (my : Machine) (hy : h y = some my) :
    ∃ my1 : Machine, (clearEntrySrc A h nd) y = some my1
      ∧ my1.podlaczenia_do_a.length = my.podlaczenia_do_a.length
      ∧ (∀ k, (my1.podlaczenia_do_a.getD k default).ja =
          (my.podlaczenia_do_a.getD k default).ja)
      ∧ my1.rodzice = my.rodzice
      ∧ my1.polaczenia_dzieci = my.polaczenia_dzieci := by
  unfold clearEntrySrc
  cases hc : h nd.1 with
  | none => exact ⟨my, hy, rfl, fun k => rfl, rfl, rfl⟩
  | some c =>
    dsimp only
    by_cases he : (c.podlaczenia_do_a.getD nd.2 default).a_z_kad = some A
    · rw [if_pos he]
      by_cases hyn : y = nd.1
      · subst hyn
        rw [hy] at hc
        injection hc with hc
        subst hc
        refine ⟨_, updh_self _ _ _, List.length_set _ _ _, ?_, rfl, rfl⟩
        intro k
        by_cases hk : k = nd.2
        · subst hk
          by_cases hlt : nd.2 < my.podlaczenia_do_a.length
          · rw [getD_set_self_of_lt _ _ _ _ hlt]
          · rw [List.set_eq_of_length_le (by omega)]
        · rw [getD_set_ne_idx _ _ _ _ _ hk]
      · rw [updh_ne _ _ _ hyn]
        exact ⟨my, hy, rfl, fun k => rfl, rfl, rfl⟩
    · rw [if_neg he]
      exact ⟨my, hy, rfl, fun k => rfl, rfl, rfl⟩

theorem foldCES_proj (A : Nat) (nds : List (Nat × Nat)) :
    ∀ (h : Heap) (y : Nat) (my : Machine), h y = some my →
    ∃ my1 : Machine, (nds.foldl (clearEntrySrc A) h) y = some my1
      ∧ my1.podlaczenia_do_a.length = my.podlaczenia_do_a.length
      ∧ (∀ k, (my1.podlaczenia_do_a.getD k default).ja =
          (my.podlaczenia_do_a.getD k default).ja)
      ∧ my1.rodzice = my.rodzice
      ∧ my1.polaczenia_dzieci = my.polaczenia_dzieci := by
  induction nds with
  | nil => exact fun h y my hy => ⟨my, hy, rfl, fun k => rfl, rfl, rfl⟩
  | cons nd nds ih =>
    intro h y my hy
    rcases clearEntrySrc_proj A h nd y my hy with ⟨mz, hz, hlen, hja, hrod, hkid⟩
    rcases ih (clearEntrySrc A h nd) y mz hz with ⟨my1, h1, hlen1, hja1, hrod1, hkid1⟩
    exact ⟨my1, h1, hlen1.trans hlen, fun k => (hja1 k).trans (hja k),
      hrod1.trans hrod, hkid1.trans hkid⟩

theorem clearEntrySrc_ne (A : Nat) (h : Heap) (nd : Nat × Nat) {y : Nat}
    (hy : y ≠ nd.1) : (clearEntrySrc A h nd) y = h y := by
  unfold clearEntrySrc
  cases hc : h nd.1 with
  | none => rfl
  | some c =>
    dsimp only
    by_cases he : (c.podlaczenia_do_a.getD nd.2 default).a_z_kad = some A
    · rw [if_pos he, updh_ne _ _ _ hy]
    · rw [if_neg he]

theorem foldCES_main (A : Nat) (nds : List (Nat × Nat)) :
    ∀ (h : Heap) (x : Nat) (mx : Machine), h x = some mx →
    (∀ j, j < mx.podlaczenia_do_a.length →
      (mx.podlaczenia_do_a.getD j default).a_z_kad = some A → (x, j) ∈ nds) →
    ∃ mx1 : Machine, (nds.foldl (clearEntrySrc A) h) x = some mx1
      ∧ mx1.podlaczenia_do_a.length = mx.podlaczenia_do_a.length
      ∧ (∀ k, (mx1.podlaczenia_do_a.getD k default).ja =
          (mx.podlaczenia_do_a.getD k default).ja)
      ∧ mx1.rodzice = mx.rodzice
      ∧ mx1.polaczenia_dzieci = mx.polaczenia_dzieci
      ∧ (∀ j, (mx1.podlaczenia_do_a.getD j default).a_z_kad ≠ some A) := by
  induction nds with
  | nil =>
    intro h x mx hx hW
    refine ⟨mx, hx, rfl, fun k => rfl, rfl, rfl, ?_⟩
    intro j hj
    by_cases hlt : j < mx.podlaczenia_do_a.length
    · exact absurd (hW j hlt hj) (List.not_mem_nil _)
    · rw [List.getD_eq_default _ _ (by omega)] at hj
      cases hj
  | cons nd nds ih =>
    intro h x mx hx hW
    rw [List.foldl_cons]
    by_cases hxn : x = nd.1
    · subst hxn
      by_cases he : (mx.podlaczenia_do_a.getD nd.2 default).a_z_kad = some A
      · have hstep : clearEntrySrc A h nd =
            updh h nd.1
              { mx with
                podlaczenia_do_a := mx.podlaczenia_do_a.set nd.2
                  { mx.podlaczenia_do_a.getD nd.2 default with a_z_kad := none } } := by
          unfold clearEntrySrc
          rw [hx]
          dsimp only
          rw [if_pos he]
        rw [hstep]
        have hW2 : ∀ j,
            j < ({ mx with
              podlaczenia_do_a := mx.podlaczenia_do_a.set nd.2
                { mx.podlaczenia_do_a.getD nd.2 default with
                  a_z_kad := none } } : Machine).podlaczenia_do_a.length →
            ((({ mx with
              podlaczenia_do_a := mx.podlaczenia_do_a.set nd.2
                { mx.podlaczenia_do_a.getD nd.2 default with
                  a_z_kad := none } } : Machine).podlaczenia_do_a.getD j
                default).a_z_kad = some A) → (nd.1, j) ∈ nds := by
          intro j hj hjA
          dsimp only at hj hjA
          rw [List.length_set] at hj
          by_cases hk : j = nd.2
          · subst hk
            by_cases hlt : nd.2 < mx.podlaczenia_do_a.length
            · rw [getD_set_self_of_lt _ _ _ _ hlt] at hjA
              cases hjA
            · exact absurd hj hlt
          · rw [getD_set_ne_idx _ _ _ _ _ hk] at hjA
            rcases List.mem_cons.mp (hW j hj hjA) with hh | hh
            · exact absurd (congrArg Prod.snd hh) hk
            · exact hh
        rcases ih _ _ _ (updh_self _ _ _) hW2 with ⟨mx1, h1, hlen, hja, hrod, hkid, hclear⟩
        refine ⟨mx1, h1, ?_, ?_, hrod, hkid, hclear⟩
        · rw [hlen]
          exact List.length_set _ _ _
        · intro k
          rw [hja k]
          dsimp only
          by_cases hk : k = nd.2
          · subst hk
            by_cases hlt : nd.2 < mx.podlaczenia_do_a.length
            · rw [getD_set_self_of_lt _ _ _ _ hlt]
            · rw [List.set_eq_of_length_le (by omega)]
          · rw [getD_set_ne_idx _ _ _ _ _ hk]
      · have hstep : clearEntrySrc A h nd = h := by
          unfold clearEntrySrc
          rw [hx]
          dsimp only
          rw [if_neg he]
        rw [hstep]
        have hW2 : ∀ j, j < mx.podlaczenia_do_a.length →
            (mx.podlaczenia_do_a.getD j default).a_z_kad = some A → (nd.1, j) ∈ nds := by
          intro j hj hjA
          by_cases hk : j = nd.2
          · subst hk
            exact absurd hjA he
          · rcases List.mem_cons.mp (hW j hj hjA) with hh | hh
            · exact absurd (congrArg Prod.snd hh) hk
            · exact hh
        exact ih h nd.1 mx hx hW2
    · have hW2 : ∀ j, j < mx.podlaczenia_do_a.length →
          (mx.podlaczenia_do_a.getD j default).a_z_kad = some A → (x, j) ∈ nds := by
        intro j hj hjA
        rcases List.mem_cons.mp (hW j hj hjA) with hh | hh
        · exact absurd (congrArg Prod.fst hh) hxn
        · exact hh
      exact ih (clearEntrySrc A h nd) x mx
        (by rw [clearEntrySrc_ne A h nd hxn, hx]) hW2

theorem killA_mem (A z : Nat) (l : List (Option Nat)) (hz : z ≠ A) :
    (some z) ∈ l.map (fun p => if p = some A then none else p) ↔ (some z) ∈ l := by
  constructor
  · intro hm
    rcases List.mem_map.mp hm with ⟨p, hp, hpe⟩
    by_cases hpA : p = some A
    · rw [if_pos hpA] at hpe
      cases hpe
    · rw [if_neg hpA] at hpe
      exact hpe ▸ hp
  · intro hm
    exact List.mem_map.mpr ⟨some z, hm,
      by rw [if_neg (fun hc => hz (Option.some.inj hc))]⟩

theorem killA_notA (A : Nat) (l : List (Option Nat)) :
    (some A) ∉ l.map (fun p => if p = some A then none else p) := by
  intro hm
  rcases List.mem_map.mp hm with ⟨p, hp, hpe⟩
  by_cases hpA : p = some A
  · rw [if_pos hpA] at hpe
    cases hpe
  · rw [if_neg hpA] at hpe
    exact hpA hpe

theorem nullParentA_proj (A : Nat) (h : Heap) (nd : Nat × Nat) (y : Nat)
    (my : Machine) (hy : h y = some my) :
    ∃ my1 : Machine, (nullParentA A h nd) y = some my1
      ∧ my1.podlaczenia_do_a = my.podlaczenia_do_a
      ∧ my1.polaczenia_dzieci = my.polaczenia_dzieci
      ∧ (∀ z : Nat, z ≠ A → ((some z) ∈ my1.rodzice ↔ (some z) ∈ my.rodzice))
      ∧ ((some A) ∉ my.rodzice → (some A) ∉ my1.rodzice) := by
  unfold nullParentA
  cases hc : h nd.1 with
  | none => exact ⟨my, hy, rfl, rfl, fun z _ => Iff.rfl, fun hh => hh⟩
  | some c =>
    dsimp only
    cases hja : (c.podlaczenia_do_a.getD nd.2 default).ja with
    | none => exact ⟨my, hy, rfl, rfl, fun z _ => Iff.rfl, fun hh => hh⟩
    | some jaId =>
      dsimp only
      cases hcj : h jaId with
      | none => exact ⟨my, hy, rfl, rfl, fun z _ => Iff.rfl, fun hh => hh⟩
      | some cja =>
        dsimp only
        by_cases hyj : y = jaId
        · subst hyj
          rw [hy] at hcj
          injection hcj with hcj
          subst hcj
          refine ⟨_, updh_self _ _ _, rfl, rfl, ?_, ?_⟩
          · exact fun z hz => killA_mem A z my.rodzice hz
          · exact fun _ => killA_notA A my.rodzice
        · rw [updh_ne _ _ _ hyj]
          exact ⟨my, hy, rfl, rfl, fun z _ => Iff.rfl, fun hh => hh⟩

theorem foldNPA_proj (A : Nat) (nds : List (Nat × Nat)) :
    ∀ (h : Heap) (y : Nat) (my : Machine), h y = some my →
    ∃ my1 : Machine, (nds.foldl (nullParentA A) h) y = some my1
      ∧ my1.podlaczenia_do_a = my.podlaczenia_do_a
      ∧ my1.polaczenia_dzieci = my.polaczenia_dzieci
      ∧ (∀ z : Nat, z ≠ A → ((some z) ∈ my1.rodzice ↔ (some z) ∈ my.rodzice))
      ∧ ((some A) ∉ my.rodzice → (some A) ∉ my1.rodzice) := by
  induction nds with
  | nil => exact fun h y my hy => ⟨my, hy, rfl, rfl, fun z _ => Iff.rfl, fun hh => hh⟩
  | cons nd nds ih =>
    intro h y my hy
    rcases nullParentA_proj A h nd y my hy with ⟨mz, hz, hpodl, hkids, hziff, hnoA⟩
    rcases ih (nullParentA A h nd) y mz hz with ⟨my1, h1, hpodl1, hkids1, hziff1, hnoA1⟩
    exact ⟨my1, h1, hpodl1.trans hpodl, hkids1.trans hkids,
      fun z hz2 => (hziff1 z hz2).trans (hziff z hz2),
      fun hh => hnoA1 (hnoA hh)⟩

theorem foldNPA_main (A : Nat) (nds : List (Nat × Nat)) :
    ∀ (h : Heap) (x : Nat) (mx : Machine), h x = some mx →
    (∀ j, j < mx.podlaczenia_do_a.length →
      (mx.podlaczenia_do_a.getD j default).ja = some x) →
    (∃ nd ∈ nds, nd.1 = x ∧ nd.2 < mx.podlaczenia_do_a.length) →
    ∃ mx1 : Machine, (nds.foldl (nullParentA A) h) x = some mx1
      ∧ mx1.podlaczenia_do_a = mx.podlaczenia_do_a
      ∧ mx1.polaczenia_dzieci = mx.polaczenia_dzieci
      ∧ (some A) ∉ mx1.rodzice := by
  induction nds with
  | nil =>
    intro h x mx _ _ hex
    rcases hex with ⟨nd, hnd, _⟩
    exact absurd hnd (List.not_mem_nil _)
  | cons nd nds ih =>
    intro h x mx hx hja hex
    rw [List.foldl_cons]
    by_cases hnd : nd.1 = x ∧ nd.2 < mx.podlaczenia_do_a.length
    · have hstep : nullParentA A h nd =
          updh h x
            { mx with
              rodzice := mx.rodzice.map (fun p => if p = some A then none else p) } := by
        unfold nullParentA
        rw [show h nd.1 = some mx from by rw [hnd.1]; exact hx]
        dsimp only
        rw [hja nd.2 hnd.2]
        dsimp only
        rw [hx]
      rw [hstep]
      rcases foldNPA_proj A nds _ x _ (updh_self _ _ _) with
        ⟨mx1, h1, hpodl, hkids, _, hnoA⟩
      exact ⟨mx1, h1, hpodl, hkids, hnoA (killA_notA A mx.rodzice)⟩
    · rcases nullParentA_proj A h nd x mx hx with ⟨mz, hz, hpodl, hkids, _, _⟩
      have hja2 : ∀ j, j < mz.podlaczenia_do_a.length →
          (mz.podlaczenia_do_a.getD j default).ja = some x := by
        intro j hj
        rw [hpodl] at hj ⊢
        exact hja j hj
      have hex2 : ∃ nd2 ∈ nds, nd2.1 = x ∧ nd2.2 < mz.podlaczenia_do_a.length := by
        rcases hex with ⟨nd2, hmem, hnd2⟩
        rcases List.mem_cons.mp hmem with hh | hh
        · exact absurd (hh ▸ hnd2) hnd
        · exact ⟨nd2, hh, hnd2.1, by rw [hpodl]; exact hnd2.2⟩
      rcases ih (nullParentA A h nd) x mz hz hja2 hex2 with
        ⟨mx1, h1, hpodl1, hkids1, hnoA1⟩
      exact ⟨mx1, h1, hpodl1.trans hpodl, hkids1.trans hkids, hnoA1⟩

theorem removeChildNodes_proj (A : Nat) (h : Heap) (p : Option Nat) (y : Nat)
    (my : Machine) (hy : h y = some my) :
    ∃ my1 : Machine, (removeChildNodes A h p) y = some my1
      ∧ my1.podlaczenia_do_a = my.podlaczenia_do_a
      ∧ my1.rodzice = my.rodzice
      ∧ (∀ nd ∈ my1.polaczenia_dzieci, nd ∈ my.polaczenia_dzieci) := by
  unfold removeChildNodes
  cases p with
  | none => exact ⟨my, hy, rfl, rfl, fun nd hnd => hnd⟩
  | some pid =>
    dsimp only
    cases hp : h pid with
    | none => exact ⟨my, hy, rfl, rfl, fun nd hnd => hnd⟩
    | some pp =>
      dsimp only
      by_cases hyp : y = pid
      · subst hyp
        rw [hy] at hp
        injection hp with hp
        subst hp
        refine ⟨_, updh_self _ _ _, rfl, rfl, ?_⟩
        exact fun nd hnd => List.mem_of_mem_filter hnd
      · rw [updh_ne _ _ _ hyp]
        exact ⟨my, hy, rfl, rfl, fun nd hnd => hnd⟩

theorem foldRCN_proj (A : Nat) (ps : List (Option Nat)) :
    ∀ (h : Heap) (y : Nat) (my : Machine), h y = some my →
    ∃ my1 : Machine, (ps.foldl (removeChildNodes A) h) y = some my1
      ∧ my1.podlaczenia_do_a = my.podlaczenia_do_a
      ∧ my1.rodzice = my.rodzice
      ∧ (∀ nd ∈ my1.polaczenia_dzieci, nd ∈ my.polaczenia_dzieci) := by
  induction ps with
  | nil => exact fun h y my hy => ⟨my, hy, rfl, rfl, fun nd hnd => hnd⟩
  | cons p ps ih =>
    intro h y my hy
    rcases removeChildNodes_proj A h p y my hy with ⟨mz, hz, hpodl, hrod, hsub⟩
    rcases ih (removeChildNodes A h p) y mz hz with ⟨my1, h1, hpodl1, hrod1, hsub1⟩
    exact ⟨my1, h1, hpodl1.trans hpodl, hrod1.trans hrod,
      fun nd hnd => hsub nd (hsub1 nd hnd)⟩

theorem foldRCN_main (A : Nat) (ps : List (Option Nat)) :
    ∀ (h : Heap) (x : Nat) (mx aA : Machine), h x = some mx → h A = some aA →
    x ≠ A →
    (∀ j, j < aA.podlaczenia_do_a.length →
      (aA.podlaczenia_do_a.getD j default).ja = some A) →
    (∀ nd ∈ mx.polaczenia_dzieci, nd.1 = A → nd.2 < aA.podlaczenia_do_a.length) →
    (some x) ∈ ps →
    ∃ mx1 : Machine, (ps.foldl (removeChildNodes A) h) x = some mx1
      ∧ mx1.podlaczenia_do_a = mx.podlaczenia_do_a
      ∧ mx1.rodzice = mx.rodzice
      ∧ (∀ nd ∈ mx1.polaczenia_dzieci, nd.1 ≠ A) := by
  induction ps with
  | nil =>
    intro h x mx aA _ _ _ _ _ hmem
    exact absurd hmem (List.not_mem_nil _)
  | cons p ps ih =>
    intro h x mx aA hx hA hxA hjaA hbound hmem
    rw [List.foldl_cons]
    by_cases hp : p = some x
    · subst hp
      have hstep : removeChildNodes A h (some x) =
          updh h x
            { mx with
              polaczenia_dzieci := mx.polaczenia_dzieci.filter
                (fun nd => !(derefJa h nd == some A)) } := by
        unfold removeChildNodes
        dsimp only
        rw [hx]
      rw [hstep]
      have hclean : ∀ nd ∈ mx.polaczenia_dzieci.filter
          (fun nd => !(derefJa h nd == some A)), nd.1 ≠ A := by
        intro nd hnd hndA
        have hmemf := List.mem_filter.mp hnd
        have hpred := hmemf.2
        have hder : derefJa h nd = some A := by
          unfold derefJa
          rw [show h nd.1 = some aA from by rw [hndA]; exact hA]
          exact hjaA nd.2 (hbound nd hmemf.1 hndA)
        rw [hder] at hpred
        simp at hpred
      rcases foldRCN_proj A ps _ x _ (updh_self _ _ _) with
        ⟨mx1, h1, hpodl, hrod, hsub⟩
      exact ⟨mx1, h1, hpodl, hrod, fun nd hnd => hclean nd (hsub nd hnd)⟩
    · rcases removeChildNodes_proj A h p x mx hx with ⟨mz, hz, hpodl, hrod, hsub⟩
      rcases removeChildNodes_proj A h p A aA hA with ⟨az, hza, hpodlA, _, _⟩
      have hjaA2 : ∀ j, j < az.podlaczenia_do_a.length →
          (az.podlaczenia_do_a.getD j default).ja = some A := by
        intro j hj
        rw [hpodlA] at hj ⊢
        exact hjaA j hj
      have hbound2 : ∀ nd ∈ mz.polaczenia_dzieci, nd.1 = A →
          nd.2 < az.podlaczenia_do_a.length := by
        intro nd hnd hndA
        rw [hpodlA]
        exact hbound nd (hsub nd hnd) hndA
      have hmem2 : (some x) ∈ ps := by
        rcases List.mem_cons.mp hmem with hh | hh
        · exact absurd hh.symm hp
        · exact hh
      rcases ih (removeChildNodes A h p) x mz az hz hza hxA hjaA2 hbound2 hmem2 with
        ⟨mx1, h1, hpodl1, hrod1, hnoA1⟩
      exact ⟨mx1, h1, hpodl1.trans hpodl, hrod1.trans hrod, hnoA1⟩

theorem forall_getD_imp_mem (l : List Conn) (P : Conn → Prop)
    (hP : ∀ j, j < l.length → P (l.getD j default)) : ∀ e ∈ l, P e := by
  intro e he
  rcases List.mem_iff_getElem.mp he with ⟨i, hi, hei⟩
  have h2 := hP i hi
  rw [show l.getD i default = l[i] from by
    simp [List.getD, List.getElem?_eq_getElem hi]] at h2
  rw [hei] at h2
  exact h2

/-- C4: teardown completeness of `ma_delete`.  For a machine `A` and a
surviving machine `x` whose records satisfy the bookkeeping invariants that
`ma_create_full` / `ma_connect` / `ma_disconnect` maintain (wiring entries
referencing `A` are listed in `A`'s child list; a parent-list entry for `A`
comes with an in-range child node owned by `x`; `ja` fields name the owning
machine; `x`'s child nodes into `A` are in range and are matched by `x` in
`A`'s parent list), after `ma_delete(A)` the machine `x` survives and: no
wiring entry of `x` references `A` as its source, `x`'s parent list does not
contain `A`, and `x`'s child list holds no node of `A`. -/
theorem delete_teardown_C4 (h : Heap) (A x : Nat) (a mx : Machine)
    (hA : h A = some a) (hxA : x ≠ A) (hx : h x = some mx)
    (W1 : ∀ j, j < mx.podlaczenia_do_a.length →
      (mx.podlaczenia_do_a.getD j default).a_z_kad = some A →
      (x, j) ∈ a.polaczenia_dzieci)
    (W2 : (some A) ∈ mx.rodzice →
      ∃ nd ∈ a.polaczenia_dzieci, nd.1 = x ∧ nd.2 < mx.podlaczenia_do_a.length)
    (W4x : ∀ j, j < mx.podlaczenia_do_a.length →
      (mx.podlaczenia_do_a.getD j default).ja = some x)
    (W4A : ∀ j, j < a.podlaczenia_do_a.length →
      (a.podlaczenia_do_a.getD j default).ja = some A)
    (W3 : ∀ nd ∈ mx.polaczenia_dzieci, nd.1 = A →
      nd.2 < a.podlaczenia_do_a.length ∧ (some x) ∈ a.rodzice) :
    ∃ mx2 : Machine, (ma_delete h (some A)) x = some mx2
      ∧ (∀ e ∈ mx2.podlaczenia_do_a, e.a_z_kad ≠ some A)
      ∧ (some A) ∉ mx2.rodzice
      ∧ (∀ nd ∈ mx2.polaczenia_dzieci, nd.1 ≠ A) := by
  obtain ⟨a1, hA1, hlenA1, hjaA1, hrodA1, hkidA1⟩ :=
    foldCES_proj A a.polaczenia_dzieci h A a hA
  obtain ⟨mx1, hx1, hlen1, hja1, hrod1, hkid1, hclear1⟩ :=
    foldCES_main A a.polaczenia_dzieci h x mx hx W1
  have hB : ∃ mx2 : Machine,
      (a.polaczenia_dzieci.foldl (nullParentA A)
        (a.polaczenia_dzieci.foldl (clearEntrySrc A) h)) x = some mx2
      ∧ mx2.podlaczenia_do_a = mx1.podlaczenia_do_a
      ∧ mx2.polaczenia_dzieci = mx1.polaczenia_dzieci
      ∧ (some A) ∉ mx2.rodzice := by
    by_cases hmemA : (some A) ∈ mx.rodzice
    · rcases W2 hmemA with ⟨nd, hndmem, hnd1, hnd2⟩
      exact foldNPA_main A a.polaczenia_dzieci _ x mx1 hx1
        (fun j hj => by rw [hja1 j]; exact W4x j (by omega))
        ⟨nd, hndmem, hnd1, by omega⟩
    · rcases foldNPA_proj A a.polaczenia_dzieci _ x mx1 hx1 with
        ⟨mx2, hx2, hpodl2, hkid2, _, hnoA2⟩
      exact ⟨mx2, hx2, hpodl2, hkid2, hnoA2 (by rw [hrod1]; exact hmemA)⟩
  rcases hB with ⟨mx2, hx2, hpodl2, hkid2, hnoA2⟩
  obtain ⟨a2, hA2, hpodlA2, hkidsA2, hziffA2, _⟩ :=
    foldNPA_proj A a.polaczenia_dzieci _ A a1 hA1
  have hjaA2 : ∀ j, j < a2.podlaczenia_do_a.length →
      (a2.podlaczenia_do_a.getD j default).ja = some A := by
    intro j hj
    rw [hpodlA2] at hj ⊢
    rw [hjaA1 j]
    exact W4A j (by omega)
  have hC : ∃ mx3 : Machine,
      (a2.rodzice.foldl (removeChildNodes A)
        (a.polaczenia_dzieci.foldl (nullParentA A)
          (a.polaczenia_dzieci.foldl (clearEntrySrc A) h))) x = some mx3
      ∧ mx3.podlaczenia_do_a = mx2.podlaczenia_do_a
      ∧ mx3.rodzice = mx2.rodzice
      ∧ (∀ nd ∈ mx3.polaczenia_dzieci, nd.1 ≠ A) := by
    by_cases hAnode : ∃ nd ∈ mx.polaczenia_dzieci, nd.1 = A
    · rcases hAnode with ⟨nd0, hnd0mem, hnd0A⟩
      have hxrodz : (some x) ∈ a2.rodzice := by
        rw [hziffA2 x hxA, hrodA1]
        exact (W3 nd0 hnd0mem hnd0A).2
      refine foldRCN_main A a2.rodzice _ x mx2 a2 hx2 hA2 hxA hjaA2 ?_ hxrodz
      intro nd hnd hndA
      rw [hpodlA2, hlenA1]
      have hndmem : nd ∈ mx.polaczenia_dzieci := by
        rw [hkid2, hkid1] at hnd
        exact hnd
      exact (W3 nd hndmem hndA).1
    · rcases foldRCN_proj A a2.rodzice _ x mx2 hx2 with
        ⟨mx3, hx3, hpodl3, hrod3, hsub3⟩
      refine ⟨mx3, hx3, hpodl3, hrod3, ?_⟩
      intro nd hnd hndA
      exact hAnode ⟨nd, by rw [← hkid1, ← hkid2]; exact hsub3 nd hnd, hndA⟩
  rcases hC with ⟨mx3, hx3, hpodl3, hrod3, hnoAkids3⟩
  have hdel : (ma_delete h (some A)) x =
      (a2.rodzice.foldl (removeChildNodes A)
        (a.polaczenia_dzieci.foldl (nullParentA A)
          (a.polaczenia_dzieci.foldl (clearEntrySrc A) h))) x := by
    simp only [ma_delete, hA]
    rw [if_neg hxA, hA1]
    dsimp only
    rw [hkidA1, hA2]
  refine ⟨mx3, by rw [hdel]; exact hx3, ?_, ?_, hnoAkids3⟩
  · rw [hpodl3, hpodl2]
    exact forall_getD_imp_mem mx1.podlaczenia_do_a _ (fun j _ => hclear1 j)
  · rw [hrod3]
    exact hnoA2

/-- C4 witness: the teardown theorem applied to the two-machine cycle fixture
(machine 0 deleted, machine 1 surviving), plus a direct evaluation of the
survivor's record. -/
theorem delete_teardown_C4_witness :
    (∃ mx2 : Machine, (ma_delete hC4 (some 0)) 1 = some mx2
      ∧ (∀ e ∈ mx2.podlaczenia_do_a, e.a_z_kad ≠ some 0)
      ∧ (some 0) ∉ mx2.rodzice
      ∧ (∀ nd ∈ mx2.polaczenia_dzieci, nd.1 ≠ 0))
  ∧ ((ma_delete hC4 (some 0)) 1).map
      (fun mm => (mm.podlaczenia_do_a.map Conn.a_z_kad, mm.rodzice,
        mm.polaczenia_dzieci)) = some ([none], [none], []) := by
  refine ⟨?_, by decide⟩
  exact delete_teardown_C4 hC4 0 1 mC4A mC4X rfl (by decide) rfl
    (by intro j hj hsrc
        have hj1 : j < 1 := hj
        interval_cases j
        decide)
    (by decide)
    (by intro j hj
        have hj1 : j < 1 := hj
        interval_cases j
        decide)
    (by intro j hj
        have hj1 : j < 1 := hj
        interval_cases j
        decide)
    (by decide)
